import Mathlib

/-!
Shallow embedding of the gettext MO-catalog library (crate root `src/lib.rs`,
with `src/parser.rs`, `src/plurals.rs`, `src/metadata.rs`, `src/error.rs`)
and proofs about the claims on its specification.

Modelling conventions:
* text is `List Char` (`Str`); the Rust code only ever slices at ASCII
  boundaries for the inputs exercised here, so char positions and byte
  positions coincide;
* bytes are `List Nat`;
* counts are `Nat` (the `u64` domain of the plural resolvers);
* hash maps are modelled as functions to `Option` (insertion is pointwise
  update), association lists where iteration is irrelevant;
* fallible Rust code returns `Except`; a Rust panic (e.g. `unwrap` on an
  `Err`) is modelled by the distinguished outcome `PErr.panicked`.
-/

namespace Gettext

abbrev Str := List Char

/-- Whitespace predicate used by the model of Rust's `str::trim`. -/
def ws (c : Char) : Bool := c.isWhitespace

/-- Model of Rust's `str::trim`: strip whitespace from both ends. -/
def trim (s : Str) : Str := ((s.dropWhile ws).reverse.dropWhile ws).reverse

/-- Numeric value of a digit string (radix 10). -/
def digitsVal (l : Str) : Nat := l.foldl (fun a c => a * 10 + (c.toNat - 48)) 0

/-- Model of `u64::from_str_radix(src, 10).ok()`: an optional leading plus
sign, then one or more decimal digits, rejecting values that overflow 64
bits. -/
def parseU64 (s : Str) : Option Nat :=
  let t := match s with
    | '+' :: r => r
    | _ => s
  if t ≠ [] ∧ t.all Char.isDigit then
    let v := digitsVal t
    if v < 2 ^ 64 then some v else none
  else none

/-- The error enumeration of `src/error.rs` (the `Io` payload is dropped). -/
inductive Error where
  | BadMagic
  | DecodingError
  | Eof
  | Io
  | MalformedMetadata
  | MisplacedMetadata
  | PluralParsing
  | UnknownEncoding
deriving DecidableEq, Repr

/-- Operators of the plural-expression language, `src/plurals.rs`. -/
inductive Operator where
  | Equal
  | NotEqual
  | GreaterOrEqual
  | SmallerOrEqual
  | Greater
  | Smaller
  | And
  | Or
  | Modulo
deriving DecidableEq, Repr

/-- The plural-expression tree, `src/plurals.rs`. -/
inductive Ast where
  | Ternary (cond ok nok : Ast)
  | N
  | Integer (x : Nat)
  | Op (op : Operator) (lhs rhs : Ast)
  | Not (val : Ast)
deriving DecidableEq, Repr

/-- Parenthesis depth contribution of one character. -/
def parenDelta (c : Char) : Int := if c = '(' then 1 else if c = ')' then -1 else 0

/-- Parenthesis balance of a string (sum of the deltas). -/
def balI (s : Str) : Int := (s.map parenDelta).sum

/-- State of the fold inside `index_of`:
(match_index, i, n_matches, paren_level). -/
abbrev IOSt := Option Nat × Nat × Nat × Int

/-- One step of the fold inside `index_of` (`src/plurals.rs`, `index_of`). -/
def ioStep (pat : Str) (st : IOSt) (ch : Char) : IOSt :=
  match st with
  | (some x, i, nMatches, parenLevel) => (some x, i, nMatches, parenLevel)
  | (none, i, nMatches, parenLevel) =>
    let newParLvl := parenLevel + parenDelta ch
    if pat[nMatches]? = some ch then
      if nMatches + 1 = pat.length ∧ newParLvl = 0 then
        (some (i - nMatches), i + 1, nMatches + 1, newParLvl)
      else
        (none, i + 1, nMatches + 1, newParLvl)
    else
      (none, i + 1, 0, newParLvl)

/-- Finds the index of a pattern, outside of parentheses
(`src/plurals.rs`, `index_of`). -/
def index_of (src pat : Str) : Option Nat :=
  (src.foldl (ioStep pat) ((none, 0, 0, 0) : IOSt)).1

/-- Invariant carried by the `index_of` fold over the consumed prefix `pre`. -/
def ioInv (pat pre : Str) : IOSt → Prop
  | (none, i, nM, lvl) =>
      i = pre.length ∧ nM ≤ i ∧ nM ≤ pat.length ∧
      pre.drop (i - nM) = pat.take nM ∧ lvl = balI pre
  | (some x, _i, _nM, _lvl) =>
      x + pat.length ≤ pre.length ∧
      (pre.take (x + pat.length)).drop x = pat ∧
      balI (pre.take (x + pat.length)) = 0

theorem balI_append (a b : Str) : balI (a ++ b) = balI a + balI b := by
  simp [balI]

theorem ioStep_inv {pat pre : Str} {st : IOSt} (ch : Char)
    (h : ioInv pat pre st) : ioInv pat (pre ++ [ch]) (ioStep pat st ch) := by
  obtain ⟨mi, i, nM, lvl⟩ := st
  cases mi with
  | some x =>
    simp only [ioInv, ioStep] at h ⊢
    obtain ⟨h1, h2, h3⟩ := h
    refine ⟨by simp; omega, ?_, ?_⟩
    · rw [List.take_append_of_le_length h1]; exact h2
    · rw [List.take_append_of_le_length h1]; exact h3
  | none =>
    simp only [ioInv] at h
    obtain ⟨hi, hnm, hnp, hslice, hlvl⟩ := h
    have hlen : (pre ++ [ch]).length = pre.length + 1 := by simp
    have hbal : balI (pre ++ [ch]) = balI pre + parenDelta ch := by
      rw [balI_append]; simp [balI]
    simp only [ioStep]
    by_cases hp : pat[nM]? = some ch
    · have hnMlt : nM < pat.length := by
        by_contra hge
        rw [List.getElem?_eq_none (by omega)] at hp
        simp at hp
      have htake : pat.take (nM + 1) = pat.take nM ++ [ch] := by
        rw [List.take_succ]
        simp [hp]
      have hdrop : (pre ++ [ch]).drop (i - nM) = pat.take nM ++ [ch] := by
        rw [List.drop_append_of_le_length (by omega), hslice]
      rw [if_pos hp]
      by_cases hc : nM + 1 = pat.length ∧ lvl + parenDelta ch = 0
      · rw [if_pos hc]
        simp only [ioInv]
        have hx : i - nM + pat.length = i + 1 := by omega
        refine ⟨by simp; omega, ?_, ?_⟩
        · rw [hx, List.take_of_length_le (by simp; omega), hdrop, ← htake,
            hc.1, List.take_length]
        · rw [hx, List.take_of_length_le (by simp; omega), hbal, ← hlvl]
          exact hc.2
      · rw [if_neg hc]
        simp only [ioInv]
        refine ⟨by simp; omega, by omega, by omega, ?_, by rw [hbal, hlvl]⟩
        have hs : i + 1 - (nM + 1) = i - nM := by omega
        rw [hs, hdrop, htake]
    · rw [if_neg hp]
      simp only [ioInv]
      refine ⟨by simp; omega, by omega, by omega, ?_, by rw [hbal, hlvl]⟩
      rw [List.drop_eq_nil_of_le (by simp; omega)]
      simp

theorem ioFoldl_inv (pat : Str) : ∀ (l pre : Str) (st : IOSt),
    ioInv pat pre st → ioInv pat (pre ++ l) (l.foldl (ioStep pat) st)
  | [], pre, st, h => by simpa using h
  | c :: t, pre, st, h => by
    have := ioFoldl_inv pat t (pre ++ [c]) _ (ioStep_inv c h)
    simpa using this

theorem index_of_spec {src pat : Str} {x : Nat} (h : index_of src pat = some x) :
    x + pat.length ≤ src.length ∧ (src.take (x + pat.length)).drop x = pat ∧
    balI (src.take (x + pat.length)) = 0 := by
  have h0 : ioInv pat [] ((none, 0, 0, 0) : IOSt) := by
    simp [ioInv, balI]
  have hinv := ioFoldl_inv pat src [] _ h0
  simp only [List.nil_append] at hinv
  unfold index_of at h
  rcases hfe : src.foldl (ioStep pat) ((none, 0, 0, 0) : IOSt) with ⟨mi, i, nM, lvl⟩
  rw [hfe] at hinv h
  cases mi with
  | none => simp at h
  | some x0 =>
    simp only at h
    cases h
    exact hinv

theorem trim_length_le (s : Str) : (trim s).length ≤ s.length := by
  unfold trim
  calc ((s.dropWhile ws).reverse.dropWhile ws).reverse.length
      ≤ (s.dropWhile ws).reverse.length := by
        rw [List.length_reverse]
        exact (List.dropWhile_sublist ws).length_le
    _ ≤ s.length := by
        rw [List.length_reverse]
        exact (List.dropWhile_sublist ws).length_le

/-- One step of the matching-parenthesis scan in `Ast::parse_parens`
(`src/plurals.rs`): state is (level, index). -/
def parenScanStep (st : Int × Nat) (ch : Char) : Int × Nat :=
  match st with
  | (level, index) =>
    if level = 0 then
      if ch = '(' then (level + 1, index + 1) else (level, index)
    else if ch = '(' then (level + 1, index + 1)
    else if ch = ')' then (level - 1, index + 1)
    else (level, index + 1)

/-- The precedence chain of `Ast::parse` and its helper functions, one
constructor per function of `src/plurals.rs`. -/
inductive Stage where
  | top
  | parens
  | pAnd
  | pOr
  | pTernary
  | pGe
  | pGt
  | pLe
  | pLt
  | pEq
  | pNeq
  | pMod
  | pNot
  | pInt
  | pN
deriving DecidableEq

/-- Rank of a stage inside the precedence chain (for termination). -/
def Stage.rank : Stage → Nat
  | .top => 15
  | .parens => 14
  | .pAnd => 13
  | .pOr => 12
  | .pTernary => 11
  | .pGe => 10
  | .pGt => 9
  | .pLe => 8
  | .pLt => 7
  | .pEq => 6
  | .pNeq => 5
  | .pMod => 4
  | .pNot => 3
  | .pInt => 2
  | .pN => 1

/-- Measure driving the fuel of the plural-expression parser: strictly
decreases along every call of the Rust recursion. -/
def stageMeasure (st : Stage) (src : Str) : Nat := src.length * 16 + st.rank

/-- The recursive-descent plural-expression parser of `src/plurals.rs`,
written with explicit fuel so that it is structurally recursive (the
wrapper `parseStage` supplies `stageMeasure + 1` fuel, which
`parseStageGo_fuel` shows is inexhaustible). `Stage.top` is `Ast::parse`,
`Stage.parens` is `Ast::parse_parens`, `Stage.pAnd` is `Ast::parse_and`,
and so on down to `Stage.pN` for `Ast::parse_n`. Rust slices `src[a..b]`
become `take`/`drop` on the char list (total where Rust would panic on a
reversed range, which only happens on inputs whose parse fails anyway). -/
def parseStageGo : Nat → Stage → Str → Except Error Ast
  | 0, _, _ => .error .PluralParsing
  | fuel + 1, st, src =>
    match st with
    | .top => parseStageGo fuel .parens (trim src)
    | .parens =>
      if src.head? = some '(' then
        let inner := (src.drop 1).dropLast
        let e := (inner.foldl parenScanStep ((1, 2) : Int × Nat)).2
        if e = src.length then
          parseStageGo fuel .top (trim inner)
        else
          parseStageGo fuel .pAnd (trim src)
      else
        parseStageGo fuel .pAnd (trim src)
    | .pAnd =>
      match index_of src ['&', '&'] with
      | some i =>
        match parseStageGo fuel .top (src.take i) with
        | .error e => .error e
        | .ok l =>
          match parseStageGo fuel .top (src.drop (i + 2)) with
          | .error e => .error e
          | .ok r => .ok (.Op .And l r)
      | none => parseStageGo fuel .pOr src
    | .pOr =>
      match index_of src ['|', '|'] with
      | some i =>
        match parseStageGo fuel .top (src.take i) with
        | .error e => .error e
        | .ok l =>
          match parseStageGo fuel .top (src.drop (i + 2)) with
          | .error e => .error e
          | .ok r => .ok (.Op .Or l r)
      | none => parseStageGo fuel .pTernary src
    | .pTernary =>
      match index_of src ['?'] with
      | some i =>
        match index_of src [':'] with
        | some l =>
          match parseStageGo fuel .top (src.take i) with
          | .error e => .error e
          | .ok c =>
            match parseStageGo fuel .top ((src.take l).drop (i + 1)) with
            | .error e => .error e
            | .ok a =>
              match parseStageGo fuel .top (src.drop (l + 1)) with
              | .error e => .error e
              | .ok b => .ok (.Ternary c a b)
        | none => .error .PluralParsing
      | none => parseStageGo fuel .pGe src
    | .pGe =>
      match index_of src ['>', '='] with
      | some i =>
        match parseStageGo fuel .top (src.take i) with
        | .error e => .error e
        | .ok l =>
          match parseStageGo fuel .top (src.drop (i + 2)) with
          | .error e => .error e
          | .ok r => .ok (.Op .GreaterOrEqual l r)
      | none => parseStageGo fuel .pGt src
    | .pGt =>
      match index_of src ['>'] with
      | some i =>
        match parseStageGo fuel .top (src.take i) with
        | .error e => .error e
        | .ok l =>
          match parseStageGo fuel .top (src.drop (i + 1)) with
          | .error e => .error e
          | .ok r => .ok (.Op .Greater l r)
      | none => parseStageGo fuel .pLe src
    | .pLe =>
      match index_of src ['<', '='] with
      | some i =>
        match parseStageGo fuel .top (src.take i) with
        | .error e => .error e
        | .ok l =>
          match parseStageGo fuel .top (src.drop (i + 2)) with
          | .error e => .error e
          | .ok r => .ok (.Op .SmallerOrEqual l r)
      | none => parseStageGo fuel .pLt src
    | .pLt =>
      match index_of src ['<'] with
      | some i =>
        match parseStageGo fuel .top (src.take i) with
        | .error e => .error e
        | .ok l =>
          match parseStageGo fuel .top (src.drop (i + 1)) with
          | .error e => .error e
          | .ok r => .ok (.Op .Smaller l r)
      | none => parseStageGo fuel .pEq src
    | .pEq =>
      match index_of src ['=', '='] with
      | some i =>
        match parseStageGo fuel .top (src.take i) with
        | .error e => .error e
        | .ok l =>
          match parseStageGo fuel .top (src.drop (i + 2)) with
          | .error e => .error e
          | .ok r => .ok (.Op .Equal l r)
      | none => parseStageGo fuel .pNeq src
    | .pNeq =>
      match index_of src ['!', '='] with
      | some i =>
        match parseStageGo fuel .top (src.take i) with
        | .error e => .error e
        | .ok l =>
          match parseStageGo fuel .top (src.drop (i + 2)) with
          | .error e => .error e
          | .ok r => .ok (.Op .NotEqual l r)
      | none => parseStageGo fuel .pMod src
    | .pMod =>
      match index_of src ['%'] with
      | some i =>
        match parseStageGo fuel .top (src.take i) with
        | .error e => .error e
        | .ok l =>
          match parseStageGo fuel .top (src.drop (i + 1)) with
          | .error e => .error e
          | .ok r => .ok (.Op .Modulo l r)
      | none => parseStageGo fuel .pNot (trim src)
    | .pNot =>
      if index_of src ['!'] = some 0 then
        match parseStageGo fuel .top (src.drop 1) with
        | .error e => .error e
        | .ok v => .ok (.Not v)
      else
        parseStageGo fuel .pInt (trim src)
    | .pInt =>
      match parseU64 src with
      | some x => .ok (.Integer x)
      | none => parseStageGo fuel .pN (trim src)
    | .pN => if src = ['n'] then .ok .N else .error .PluralParsing

/-- The plural-expression parser at any stage, with inexhaustible fuel. -/
def parseStage (st : Stage) (src : Str) : Except Error Ast :=
  parseStageGo (stageMeasure st src + 1) st src

/-- `Ast::parse` of `src/plurals.rs`: trim, then `parse_parens`. -/
def Ast.parse (src : Str) : Except Error Ast := parseStage .top src

/-- `Ast::resolve` of `src/plurals.rs`. On 64-bit targets the `as usize`
casts are identities, so the whole evaluation lives in `Nat`; `%` is Lean's
total `Nat.mod` where Rust would fault on a zero divisor. -/
def Ast.resolve : Ast → Nat → Nat
  | .Ternary cond ok nok, n =>
    if cond.resolve n = 0 then nok.resolve n else ok.resolve n
  | .N, n => n
  | .Integer x, _ => x
  | .Op op lhs rhs, n =>
    match op with
    | .Equal => if lhs.resolve n = rhs.resolve n then 1 else 0
    | .NotEqual => if lhs.resolve n ≠ rhs.resolve n then 1 else 0
    | .GreaterOrEqual => if lhs.resolve n ≥ rhs.resolve n then 1 else 0
    | .SmallerOrEqual => if lhs.resolve n ≤ rhs.resolve n then 1 else 0
    | .Greater => if lhs.resolve n > rhs.resolve n then 1 else 0
    | .Smaller => if lhs.resolve n < rhs.resolve n then 1 else 0
    | .And => if lhs.resolve n ≠ 0 ∧ rhs.resolve n ≠ 0 then 1 else 0
    | .Or => if lhs.resolve n ≠ 0 ∨ rhs.resolve n ≠ 0 then 1 else 0
    | .Modulo => lhs.resolve n % rhs.resolve n
  | .Not val, n =>
    match val.resolve n with
    | 0 => 1
    | _ + 1 => 0

/-- The resolver union of `src/plurals.rs`: a compiled expression or a
plural function. -/
inductive Resolver where
  | Expr (ast : Ast)
  | Function (f : Nat → Nat)

/-- `Resolver::resolve` of `src/plurals.rs`. -/
def Resolver.resolve : Resolver → Nat → Nat
  | .Expr ast, n => ast.resolve n
  | .Function f, n => f n

/-- `default_resolver` of `src/parser.rs`: 0 when n == 1, else 1. -/
def default_resolver (n : Nat) : Nat := if n = 1 then 0 else 1

/-- First index at which `sep` occurs as a contiguous run inside `l`
(used to model Rust's left-to-right, non-overlapping `str::split`). -/
def findSeq {α : Type} [DecidableEq α] (l sep : List α) : Option Nat :=
  if sep.isPrefixOf l then some 0
  else
    match l with
    | [] => none
    | _ :: t => (findSeq t sep).map (· + 1)

theorem findSeq_some {α : Type} [DecidableEq α] {l sep : List α} {i : Nat}
    (h : findSeq l sep = some i) :
    sep.isPrefixOf (l.drop i) = true ∧ i ≤ l.length := by
  induction l generalizing i with
  | nil =>
    rw [findSeq] at h
    split at h
    next hpre =>
      cases h
      exact ⟨hpre, Nat.le_refl 0⟩
    next => simp at h
  | cons a t ih =>
    rw [findSeq] at h
    split at h
    next hpre =>
      cases h
      exact ⟨hpre, by simp⟩
    next =>
      rw [Option.map_eq_some'] at h
      obtain ⟨j, hj, hji⟩ := h
      obtain ⟨h1, h2⟩ := ih hj
      subst hji
      exact ⟨by simpa using h1, by simp; omega⟩

/-- Fuelled worker for `splitSeq`; when the separator is nonempty every
recursive call consumes at least one element of `l`, so a fuel of
`l.length + 1` makes the fuel inexhaustible. -/
def splitSeqGo {α : Type} [DecidableEq α] (sep : List α) :
    Nat → List α → List (List α)
  | 0, l => [l]
  | fuel + 1, l =>
    match findSeq l sep with
    | some i => l.take i :: splitSeqGo sep fuel (l.drop (i + sep.length))
    | none => [l]

/-- Model of Rust's `str::split` / `slice::split` with a fixed nonempty
separator sequence: split on the leftmost occurrences, keeping empty
pieces. -/
def splitSeq {α : Type} [DecidableEq α] (sep l : List α) : List (List α) :=
  if sep = [] then [l] else splitSeqGo sep (l.length + 1) l

theorem splitSeqGo_ne_nil {α : Type} [DecidableEq α] (sep : List α)
    (fuel : Nat) (l : List α) : splitSeqGo sep fuel l ≠ [] := by
  cases fuel with
  | zero => simp [splitSeqGo]
  | succ f =>
    rw [splitSeqGo]
    cases findSeq l sep <;> simp

theorem splitSeq_ne_nil {α : Type} [DecidableEq α] (sep l : List α) :
    splitSeq sep l ≠ [] := by
  rw [splitSeq]
  split
  · simp
  · exact splitSeqGo_ne_nil sep (l.length + 1) l

/-- The metadata map of `src/metadata.rs`, as an association list where the
most recent insertion shadows older ones (matching `HashMap` lookup). -/
abbrev MetadataMap := List (Str × Str)

/-- `HashMap::insert` under the newest-first association-list model. -/
def MetadataMap.insert (m : MetadataMap) (k v : Str) : MetadataMap := (k, v) :: m

/-- `HashMap::get` under the association-list model. -/
def MetadataMap.get (m : MetadataMap) (k : Str) : Option Str := List.lookup k m

/-- `parse_metadata` of `src/metadata.rs`: split the blob on newlines, drop
empty lines, and for each line split at the first colon (its absence is a
`MalformedMetadata` error), trimming name and value. -/
def parse_metadata (blob : Str) : Except Error MetadataMap :=
  ((splitSeq ['\n'] blob).filter (· ≠ [])).foldlM
    (fun (map : MetadataMap) line =>
      match line.findIdx? (fun c => c = ':') with
      | some pos =>
        .ok (map.insert (trim (line.take pos)) (trim (line.drop (pos + 1))))
      | none => .error Error.MalformedMetadata)
    ([] : MetadataMap)

/-- `MetadataMap::charset` of `src/metadata.rs`: the piece after the first
`charset=` of `Content-Type`. -/
def MetadataMap.charset (m : MetadataMap) : Option Str :=
  (m.get "Content-Type".toList).bind
    (fun x => (splitSeq "charset=".toList x)[1]?)

/-- `MetadataMap::plural_forms` of `src/metadata.rs`. -/
def MetadataMap.plural_forms (m : MetadataMap) : Option Nat × Option Str :=
  match m.get "Plural-Forms".toList with
  | some f =>
    (splitSeq [';'] f).foldl
      (fun (acc : Option Nat × Option Str) prop =>
        match prop.findIdx? (fun c => c = '=') with
        | some index =>
          let name := prop.take index
          let value := trim ((prop.drop index).drop 1)
          if trim name = "n_plurals".toList then (parseU64 value, acc.2)
          else if trim name = "plural".toList then (acc.1, some value)
          else acc
        | none => acc)
      (none, none)
  | none => (none, none)

/-- The `Message` entity of `src/lib.rs`. -/
structure Message where
  id : Str
  context : Option Str
  translated : List Str
  plural : Option Str
deriving DecidableEq, Repr

/-- `Message::new` of `src/lib.rs`: no plural form. -/
def Message.new (id : Str) (context : Option Str) (translated : List Str) :
    Message := ⟨id, context, translated, none⟩

/-- `Message::with_plural` of `src/lib.rs`. -/
def Message.with_plural (id : Str) (context : Option Str)
    (translated : List Str) (plural : Option Str) : Message :=
  ⟨id, context, translated, plural⟩

/-- `Message::get_translated` of `src/lib.rs`. -/
def Message.get_translated (m : Message) (form_no : Nat) : Option Str :=
  m.translated[form_no]?

/-- `key_with_context` of `src/lib.rs`: context, one `U+0004`, then the
key. -/
def key_with_context (context key : Str) : Str := context ++ '\x04' :: key

/-- The `strings` hash map of a catalog, modelled as a function. -/
abbrev Strings := Str → Option Message

/-- The always-empty string map of a fresh catalog. -/
def emptyStrings : Strings := fun _ => none

/-- Insertion into the `strings` map as performed by `Catalog::insert` of
`src/lib.rs`: the key is the id, or context‖U+0004‖id when a context is
present. -/
def insertMsg (s : Strings) (msg : Message) : Strings :=
  let key := match msg.context with
    | some ctxt => key_with_context ctxt msg.id
    | none => msg.id
  fun k => if k = key then some msg else s k

/-- The `Catalog` of `src/lib.rs`. -/
structure Catalog where
  strings : Strings
  resolver : Resolver
  metadata : Option MetadataMap

/-- `Catalog::new` of `src/lib.rs`. -/
def Catalog.new : Catalog := ⟨emptyStrings, .Function default_resolver, none⟩

/-- `Catalog::empty` of `src/lib.rs`. -/
def Catalog.empty : Catalog := Catalog.new

/-- `Catalog::insert` of `src/lib.rs`. -/
def Catalog.insert (c : Catalog) (msg : Message) : Catalog :=
  { c with strings := insertMsg c.strings msg }

/-- `Catalog::merge` of `src/lib.rs`: `self.strings.extend(other.strings)`,
so the incoming entry wins on key collision; the other fields are
untouched. -/
def Catalog.merge (c other : Catalog) : Catalog :=
  { c with
    strings := fun k =>
      match other.strings k with
      | some m => some m
      | none => c.strings k }

/-- `Catalog::gettext` of `src/lib.rs`. -/
def Catalog.gettext (c : Catalog) (msg_id : Str) : Str :=
  ((c.strings msg_id).bind (fun m => m.get_translated 0)).getD msg_id

/-- `Catalog::ngettext` of `src/lib.rs`. -/
def Catalog.ngettext (c : Catalog) (msg_id msg_id_plural : Str) (n : Nat) :
    Str :=
  let form_no := c.resolver.resolve n
  match (c.strings msg_id).bind (fun m => m.get_translated form_no) with
  | some msg => msg
  | none => if n = 1 then msg_id else msg_id_plural

/-- `Catalog::pgettext` of `src/lib.rs`. -/
def Catalog.pgettext (c : Catalog) (msg_context msg_id : Str) : Str :=
  let key := key_with_context msg_context msg_id
  ((c.strings key).bind (fun m => m.get_translated 0)).getD msg_id

/-- `Catalog::npgettext` of `src/lib.rs`. -/
def Catalog.npgettext (c : Catalog) (msg_context msg_id msg_id_plural : Str)
    (n : Nat) : Str :=
  let key := key_with_context msg_context msg_id
  let form_no := c.resolver.resolve n
  match (c.strings key).bind (fun m => m.get_translated form_no) with
  | some msg => msg
  | none => if n = 1 then msg_id else msg_id_plural

/-- Modelled from the spec: a character encoding of the external `encoding`
crate is, for the purposes of this development, its strict decoding
function from bytes to text (`None` models a decoding failure). -/
structure Encoding where
  decode : List Nat → Option Str

/-- Modelled from the spec: the external crate's UTF-8 decoder, faithful on
the ASCII inputs exercised here (bytes under 0x80 decode to themselves;
anything else is treated as a decoding failure). -/
def utf8Encoding : Encoding :=
  ⟨fun bs => if bs.all (fun b => b < 128) then some (bs.map Char.ofNat)
   else none⟩

/-- Modelled from the spec: `encoding_from_whatwg_label` of the external
`encoding` crate, kept as a parameter of the parser (a recognized-encoding
registry keyed by labels). -/
abbrev EncodingRegistry := Str → Option Encoding

/-- `ParseOptions` of `src/parser.rs`. -/
structure ParseOptions where
  force_encoding : Option Encoding
  force_plural : Option (Nat → Nat)

/-- `ParseOptions::new` of `src/parser.rs`. -/
def ParseOptions.new : ParseOptions := ⟨none, none⟩

/-- Endianness selected by the magic number. -/
inductive Endian where
  | le
  | be
deriving DecidableEq

/-- A 32-bit read at a byte offset, in the given endianness. -/
def readU32 : Endian → List Nat → Nat → Nat
  | .le, c, off =>
    c.getD off 0 + 256 * c.getD (off + 1) 0 + 65536 * c.getD (off + 2) 0 +
      16777216 * c.getD (off + 3) 0
  | .be, c, off =>
    16777216 * c.getD off 0 + 65536 * c.getD (off + 1) 0 +
      256 * c.getD (off + 2) 0 + c.getD (off + 3) 0

/-- `get_read_u32_fn` of `src/parser.rs`: map the magic to an endianness. -/
def get_read_u32_fn (magic : List Nat) : Option Endian :=
  if magic = [0xde, 0x12, 0x04, 0x95] then some .le
  else if magic = [0x95, 0x04, 0x12, 0xde] then some .be
  else none

/-- Outcome of a parse: an error value, or a Rust panic (the `unwrap` on
the metadata parse result in `src/parser.rs` line 217, and an
out-of-bounds index). -/
inductive PErr where
  | e (err : Error)
  | panicked
deriving DecidableEq, Repr

/-- A byte-slice `contents[a..b]`. -/
def slice (c : List Nat) (a b : Nat) : List Nat := (c.take b).drop a

/-- The resolver initially installed by `parse_catalog`
(`src/parser.rs` lines 162-163): the caller-forced plural function, or the
default resolver. -/
def initialResolver (opts : ParseOptions) : Resolver :=
  match opts.force_plural with
  | some f => .Function f
  | none => .Function default_resolver

/-- The encoding initially installed by `parse_catalog`
(`src/parser.rs` line 164): the caller-forced encoding, or UTF-8. -/
def initialEncoding (opts : ParseOptions) : Encoding :=
  opts.force_encoding.getD utf8Encoding

/-- Modelled from the spec: the resolver update of `src/parser.rs` lines
224-225 is ill-typed in the source (the `Option` returned by
`plural_forms().1` is never matched, the `Result` of `Ast::parse` is never
unwrapped, and `Resolver::Expr` takes an `Ast`, not a `Box`). Following
the spec's words — if metadata provides a plural expression source,
compile it and install it as the resolver, otherwise the previous resolver
stays — while keeping what the source does show: the assignment is
unconditional, with no `force_plural` guard. -/
def metaResolver (map : MetadataMap) (res : Resolver) : Resolver :=
  match map.plural_forms.2 with
  | some p =>
    match Ast.parse p with
    | .ok ast => .Expr ast
    | .error _ => res
  | none => res

/-- The metadata-entry processing of `src/parser.rs` lines 216-226:
`parse_metadata(&translated[0]).unwrap()` (a panic on `Err`), then the
charset switch guarded by the absence of a forced encoding (unknown labels
fail with `UnknownEncoding`), then the resolver update. -/
def metaUpdate (registry : EncodingRegistry) (opts : ParseOptions)
    (enc : Encoding) (res : Resolver) (translated : List Str) :
    Except PErr (Encoding × Resolver) :=
  match translated with
  | [] => .error .panicked
  | t0 :: _ =>
    match parse_metadata t0 with
    | .error _ => .error .panicked
    | .ok map =>
      let res' := metaResolver map res
      match map.charset, opts.force_encoding with
      | some c, none =>
        match registry c with
        | some enc' => .ok (enc', res')
        | none => .error (.e .UnknownEncoding)
      | _, _ => .ok (enc, res')

/-- Strict decoding of a list of byte slices, any failure aborting with
`None` (the `collect::<Result<Vec<_>, _>>()` of `src/parser.rs` line
214). -/
def decodeList (enc : Encoding) : List (List Nat) → Option (List Str)
  | [] => some []
  | b :: t =>
    match enc.decode b with
    | some s => (decodeList enc t).map (fun r => s :: r)
    | none => none

/-- Tail of one loop iteration of `parse_catalog` (`src/parser.rs` lines
216-228): metadata-entry handling for the empty id, then the insertion of
the decoded `Message`. -/
def stepInsert (registry : EncodingRegistry) (opts : ParseOptions)
    (enc : Encoding) (res : Resolver) (cat : Strings) (id : Str)
    (context : Option Str) (translated : List Str) :
    Except PErr (Encoding × Resolver × Strings) :=
  if id = [] then
    match metaUpdate registry opts enc res translated with
    | .error er => .error er
    | .ok (enc', res') =>
      .ok (enc', res', insertMsg cat (Message.new id context translated))
  else
    .ok (enc, res, insertMsg cat (Message.new id context translated))

/-- Translation-side part of one loop iteration of `parse_catalog`
(`src/parser.rs` lines 196-231): the misplaced-metadata check, reading and
decoding the translation blob, then `stepInsert`. -/
def stepTrans (registry : EncodingRegistry) (rd : Endian)
    (contents : List Nat) (opts : ParseOptions) (i offT : Nat)
    (enc : Encoding) (res : Resolver) (cat : Strings) (id : Str)
    (context : Option Str) : Except PErr (Encoding × Resolver × Strings) :=
  let n := contents.length
  if id = [] ∧ i ≠ 0 then .error (.e .MisplacedMetadata)
  else if n < offT + 8 then .error (.e .Eof)
  else
    let lenT := readU32 rd contents offT
    let offD := readU32 rd contents (offT + 4)
    if n < offD + lenT + 1 then .error (.e .Eof)
    else
      match decodeList enc
          (splitSeq ([0] : List Nat) (slice contents offD (offD + lenT))) with
      | none => .error (.e .DecodingError)
      | some translated =>
        stepInsert registry opts enc res cat id context translated

/-- Original-side part of one loop iteration of `parse_catalog`
(`src/parser.rs` lines 186-198): find the first NUL, decode the singular
id (ignoring everything after the NUL), fail with `Eof` when there is no
NUL. -/
def stepId (registry : EncodingRegistry) (rd : Endian) (contents : List Nat)
    (opts : ParseOptions) (i offT : Nat) (enc : Encoding) (res : Resolver)
    (cat : Strings) (context : Option Str) (original : List Nat) :
    Except PErr (Encoding × Resolver × Strings) :=
  match original.findIdx? (fun x => x = 0) with
  | none => .error (.e .Eof)
  | some i2 =>
    match enc.decode (original.take i2) with
    | none => .error (.e .DecodingError)
    | some id => stepTrans registry rd contents opts i offT enc res cat id context

/-- One loop iteration of `parse_catalog` (`src/parser.rs` lines 166-231):
bounds checks, reading the original blob, splitting off the context at the
first `0x04`, then `stepId`/`stepTrans`. -/
def stepEntry (registry : EncodingRegistry) (rd : Endian)
    (contents : List Nat) (opts : ParseOptions) (i offO offT : Nat)
    (enc : Encoding) (res : Resolver) (cat : Strings) :
    Except PErr (Encoding × Resolver × Strings) :=
  let n := contents.length
  if n < offO + 8 then .error (.e .Eof)
  else
    let len := readU32 rd contents offO
    let off := readU32 rd contents (offO + 4)
    if n < off + len + 1 then .error (.e .Eof)
    else
      let original := slice contents off (off + len + 1)
      match original.findIdx? (fun x => x = 4) with
      | some idx =>
        match enc.decode (original.take idx) with
        | none => .error (.e .DecodingError)
        | some ctx =>
          stepId registry rd contents opts i offT enc res cat (some ctx)
            (original.drop (idx + 1))
      | none => stepId registry rd contents opts i offT enc res cat none original

/-- The entry loop of `parse_catalog`, iterating `stepEntry` and threading
the table offsets (advanced by 8 per entry), the active encoding, the
resolver and the accumulated string map. -/
def parseEntries (registry : EncodingRegistry) (rd : Endian)
    (contents : List Nat) (opts : ParseOptions) :
    Nat → Nat → Nat → Nat → Encoding → Resolver → Strings →
    Except PErr (Strings × Resolver)
  | 0, _i, _offO, _offT, _enc, res, cat => .ok (cat, res)
  | remaining + 1, i, offO, offT, enc, res, cat =>
    match stepEntry registry rd contents opts i offO offT enc res cat with
    | .error er => .error er
    | .ok (enc', res', cat') =>
      parseEntries registry rd contents opts remaining (i + 1) (offO + 8)
        (offT + 8) enc' res' cat'

/-- `parse_catalog` of `src/parser.rs`: length check, magic check, header
fields, table-offset check, entry loop, final resolver assignment. -/
def parse_catalog (registry : EncodingRegistry) (contents : List Nat)
    (opts : ParseOptions) : Except PErr Catalog :=
  let n := contents.length
  if n < 28 then .error (.e .Eof)
  else
    match get_read_u32_fn (contents.take 4) with
    | none => .error (.e .BadMagic)
    | some rd =>
      let num_strings := readU32 rd contents 8
      let off_otable := readU32 rd contents 12
      let off_ttable := readU32 rd contents 16
      if n < off_otable ∨ n < off_ttable then .error (.e .Eof)
      else
        match parseEntries registry rd contents opts num_strings 0 off_otable
            off_ttable (initialEncoding opts) (initialResolver opts)
            emptyStrings with
        | .error er => .error er
        | .ok (strs, res) => .ok ⟨strs, res, none⟩

deriving instance DecidableEq for Except

/-! Concrete inputs used by counterexamples and witnesses. -/

/-- Byte list of an ASCII string. -/
def strBytes (s : String) : List Nat := s.toList.map Char.toNat

/-- Little-endian 4-byte encoding of a 32-bit value. -/
def u32le (x : Nat) : List Nat :=
  [x % 256, x / 256 % 256, x / 65536 % 256, x / 16777216 % 256]

/-- A minimal little-endian MO file holding exactly the metadata entry
(empty id at index 0) whose translation is `blob`. -/
def metaMO (blob : String) : List Nat :=
  let b := strBytes blob
  [0xde, 0x12, 0x04, 0x95] ++ List.replicate 4 0 ++ u32le 1 ++ u32le 28 ++
    u32le 36 ++ List.replicate 8 0 ++
    u32le 0 ++ u32le 44 ++
    u32le b.length ++ u32le 45 ++
    [0] ++ b ++ [0]

/-- An encoding registry recognizing no label at all. -/
def reg0 : EncodingRegistry := fun _ => none

/-- A little-endian MO file with one non-metadata entry whose original blob
is `a NUL b NUL` (singular id `a`, plural id `b`) and whose translation is
`x`. -/
def c4bytes : List Nat :=
  [0xde, 0x12, 0x04, 0x95] ++ List.replicate 4 0 ++ u32le 1 ++ u32le 28 ++
    u32le 36 ++ List.replicate 8 0 ++
    u32le 3 ++ u32le 44 ++
    u32le 1 ++ u32le 48 ++
    (strBytes "a" ++ [0] ++ strBytes "b" ++ [0]) ++
    (strBytes "x" ++ [0])

/-- A 28-byte header with a valid little-endian magic, zero strings, and an
original-table offset of 0xFFFFFFFF (far beyond the file length). -/
def c8bad : List Nat :=
  [0xde, 0x12, 0x04, 0x95] ++ List.replicate 4 0 ++ u32le 0 ++
    [255, 255, 255, 255] ++ u32le 0 ++ List.replicate 8 0

/-- A 28-byte header with a valid little-endian magic and all other header
fields zero. -/
def c8good : List Nat := [0xde, 0x12, 0x04, 0x95] ++ List.replicate 24 0

/-- A catalog holding one message with two translations and a resolver that
always answers 5 (out of range). -/
def c1cat : Catalog :=
  ⟨insertMsg emptyStrings (Message.new ['a'] none [['x'], ['y']]),
    .Function (fun _ => 5), none⟩

/-- A contextual message used by the keying witness. -/
def msg6 : Message := Message.new ['i'] (some ['c']) []

/-- Catalog A for the merge witness. -/
def c9a : Catalog := Catalog.new.insert (Message.new ['x'] none [['a']])

/-- Catalog B for the merge witness (colliding key `x`). -/
def c9b : Catalog := Catalog.new.insert (Message.new ['x'] none [['b']])

/-! Claim theorems. -/

/-- C1: for every catalog, msg_id, msg_id_plural and count n: if the
message keyed by msg_id exists but the resolver's index is at least the
number of its translations, or the lookup misses entirely, then `ngettext`
returns msg_id when n = 1 and msg_id_plural otherwise; and, independently,
under the same condition on the context-composed key, `npgettext` does
likewise. -/
theorem c1_ngettext_fallback (c : Catalog) (mid mpl ctx : Str) (n : Nat) :
    ((c.strings mid = none ∨
      ∃ m, c.strings mid = some m ∧
        m.translated.length ≤ c.resolver.resolve n) →
      c.ngettext mid mpl n = (if n = 1 then mid else mpl)) ∧
    ((c.strings (key_with_context ctx mid) = none ∨
      ∃ m, c.strings (key_with_context ctx mid) = some m ∧
        m.translated.length ≤ c.resolver.resolve n) →
      c.npgettext ctx mid mpl n = (if n = 1 then mid else mpl)) := by
  have key : ∀ (k : Str),
      (c.strings k = none ∨
        ∃ m, c.strings k = some m ∧
          m.translated.length ≤ c.resolver.resolve n) →
      (c.strings k).bind (fun m => m.get_translated (c.resolver.resolve n)) =
        none := by
    intro k hk
    rcases hk with hnone | ⟨m, hm, hlen⟩
    · rw [hnone]; rfl
    · rw [hm]
      show m.get_translated (c.resolver.resolve n) = none
      unfold Message.get_translated
      exact List.getElem?_eq_none hlen
  constructor
  · intro h1
    show (match (c.strings mid).bind
        (fun m => m.get_translated (c.resolver.resolve n)) with
      | some msg => msg
      | none => if n = 1 then mid else mpl) = _
    rw [key mid h1]
  · intro h2
    show (match (c.strings (key_with_context ctx mid)).bind
        (fun m => m.get_translated (c.resolver.resolve n)) with
      | some msg => msg
      | none => if n = 1 then mid else mpl) = _
    rw [key _ h2]

/-- Witness for C1 at a concrete catalog: an existing message with an
out-of-range resolver index (ngettext), and a missing contextual key
(npgettext), both at n = 2; each half's hypothesis is discharged on its
own. -/
theorem c1_ngettext_fallback_witness :
    c1cat.ngettext ['a'] ['p'] 2 = (if 2 = 1 then ['a'] else ['p']) ∧
    c1cat.npgettext ['c'] ['a'] ['p'] 2 = (if 2 = 1 then ['a'] else ['p']) :=
  ⟨(c1_ngettext_fallback c1cat ['a'] ['p'] ['c'] 2).1
      (Or.inr ⟨Message.new ['a'] none [['x'], ['y']], by decide, by decide⟩),
    (c1_ngettext_fallback c1cat ['a'] ['p'] ['c'] 2).2 (Or.inl (by decide))⟩

/-- C3 (code bug): a metadata blob with a colon-less non-empty line makes
`parse_metadata` return `MalformedMetadata`, but `parse_catalog` unwraps
that result and panics instead of returning the error to the caller. -/
theorem c3_malformed_metadata_panics :
    parse_metadata ('a' :: 'b' :: 'c' :: []) = .error .MalformedMetadata ∧
    (parse_catalog reg0 (metaMO "abc") ParseOptions.new).map
      (fun _ => (0 : Nat)) = .error .panicked ∧
    PErr.panicked ≠ PErr.e .MalformedMetadata :=
  ⟨by decide, by decide, by decide⟩

/-- C6: a message inserted into the strings map is reachable only under its
own key, which is exactly the id without context and
context ‖ U+0004 ‖ id with one; all other keys are untouched. -/
theorem c6_insert_keying (s : Strings) (msg : Message) (k : Str) (m : Message)
    (h : insertMsg s msg k = some m) :
    s k = some m ∨
      (m = msg ∧ k = (match msg.context with
        | some c => c ++ '\x04' :: msg.id
        | none => msg.id)) := by
  unfold insertMsg at h
  by_cases hk : k = (match msg.context with
    | some ctxt => key_with_context ctxt msg.id
    | none => msg.id)
  · rw [if_pos hk] at h
    cases h
    exact Or.inr ⟨rfl, hk⟩
  · rw [if_neg hk] at h
    exact Or.inl h

/-- Witness for C6 at a concrete contextual message. -/
theorem c6_insert_keying_witness :
    emptyStrings ['c', '\x04', 'i'] = some msg6 ∨
      (msg6 = msg6 ∧ (['c', '\x04', 'i'] : Str) = (match msg6.context with
        | some c => c ++ '\x04' :: msg6.id
        | none => msg6.id)) :=
  c6_insert_keying emptyStrings msg6 ['c', '\x04', 'i'] msg6 (by decide)

/-- C9: after merging catalog B into catalog A, every key of B maps to B's
message, keys absent from B keep A's entry, and A's resolver and metadata
are unchanged. -/
theorem c9_merge (a b : Catalog) (k : Str) (m : Message) :
    (b.strings k = some m → (a.merge b).strings k = some m) ∧
    (b.strings k = none → (a.merge b).strings k = a.strings k) ∧
    (a.merge b).resolver = a.resolver ∧
    (a.merge b).metadata = a.metadata := by
  refine ⟨fun h => ?_, fun h => ?_, rfl, rfl⟩ <;> simp [Catalog.merge, h]

/-- Witness for C9: a colliding key is taken from B, a key absent from B
stays with A, resolver and metadata untouched. -/
theorem c9_merge_witness :
    (c9a.merge c9b).strings ['x'] = some (Message.new ['x'] none [['b']]) ∧
    (c9a.merge c9b).strings ['y'] = c9a.strings ['y'] ∧
    (c9a.merge c9b).resolver = c9a.resolver ∧
    (c9a.merge c9b).metadata = c9a.metadata :=
  ⟨(c9_merge c9a c9b ['x'] (Message.new ['x'] none [['b']])).1 (by decide),
    (c9_merge c9a c9b ['y'] (Message.new [] none [])).2.1 (by decide),
    (c9_merge c9a c9b ['y'] (Message.new [] none [])).2.2.1,
    (c9_merge c9a c9b ['y'] (Message.new [] none [])).2.2.2⟩

/-! Shape lemmas about one parse step, shared by several claims. -/

theorem insertMsg_mem {s : Strings} {msg : Message} {k : Str} {m : Message}
    (h : insertMsg s msg k = some m) : s k = some m ∨ m = msg := by
  simp only [insertMsg] at h
  split at h
  · cases h; exact Or.inr rfl
  · exact Or.inl h

theorem decodeList_length {enc : Encoding} :
    ∀ {l : List (List Nat)} {r : List Str},
      decodeList enc l = some r → r.length = l.length
  | [], r, h => by
    simp only [decodeList] at h
    cases h
    rfl
  | b :: t, r, h => by
    simp only [decodeList] at h
    split at h
    · rw [Option.map_eq_some'] at h
      obtain ⟨r0, hr0, hr⟩ := h
      subst hr
      simp [decodeList_length hr0]
    · simp at h

theorem stepInsert_ok {registry : EncodingRegistry} {opts : ParseOptions}
    {enc : Encoding} {res : Resolver} {cat : Strings} {id : Str}
    {context : Option Str} {translated : List Str} {enc' : Encoding}
    {res' : Resolver} {cat' : Strings}
    (h : stepInsert registry opts enc res cat id context translated =
      .ok (enc', res', cat')) :
    cat' = insertMsg cat (Message.new id context translated) := by
  simp only [stepInsert] at h
  by_cases hid : id = []
  · rw [if_pos hid] at h
    cases hmu : metaUpdate registry opts enc res translated with
    | error er => rw [hmu] at h; simp at h
    | ok pr =>
      obtain ⟨enc2, res2⟩ := pr
      rw [hmu] at h
      cases h
      rfl
  · rw [if_neg hid] at h
    cases h
    rfl

theorem stepTrans_ok {registry : EncodingRegistry} {rd : Endian}
    {contents : List Nat} {opts : ParseOptions} {i offT : Nat}
    {enc : Encoding} {res : Resolver} {cat : Strings} {id : Str}
    {context : Option Str} {enc' : Encoding} {res' : Resolver}
    {cat' : Strings}
    (h : stepTrans registry rd contents opts i offT enc res cat id context =
      .ok (enc', res', cat')) :
    ∃ ts, ts ≠ [] ∧ cat' = insertMsg cat (Message.new id context ts) ∧
      (i ≠ 0 → id ≠ []) := by
  simp only [stepTrans] at h
  by_cases hmis : id = [] ∧ i ≠ 0
  · rw [if_pos hmis] at h; simp at h
  rw [if_neg hmis] at h
  by_cases h8 : contents.length < offT + 8
  · rw [if_pos h8] at h; simp at h
  rw [if_neg h8] at h
  by_cases h9 : contents.length <
      readU32 rd contents (offT + 4) + readU32 rd contents offT + 1
  · rw [if_pos h9] at h; simp at h
  rw [if_neg h9] at h
  cases hdec : decodeList enc (splitSeq ([0] : List Nat)
      (slice contents (readU32 rd contents (offT + 4))
        (readU32 rd contents (offT + 4) + readU32 rd contents offT))) with
  | none => simp only [hdec] at h; simp at h
  | some translated =>
    simp only [hdec] at h
    have hne : translated ≠ [] := by
      intro hnil
      subst hnil
      have hlen := decodeList_length hdec
      have hsp := splitSeq_ne_nil ([0] : List Nat)
        (slice contents (readU32 rd contents (offT + 4))
          (readU32 rd contents (offT + 4) + readU32 rd contents offT))
      cases hc : splitSeq ([0] : List Nat)
          (slice contents (readU32 rd contents (offT + 4))
            (readU32 rd contents (offT + 4) + readU32 rd contents offT)) with
      | nil => exact hsp hc
      | cons a t => rw [hc] at hlen; simp at hlen
    refine ⟨translated, hne, stepInsert_ok h, fun hi hid => ?_⟩
    exact hmis ⟨hid, hi⟩

theorem stepId_ok {registry : EncodingRegistry} {rd : Endian}
    {contents : List Nat} {opts : ParseOptions} {i offT : Nat}
    {enc : Encoding} {res : Resolver} {cat : Strings} {context : Option Str}
    {original : List Nat} {out : Encoding × Resolver × Strings}
    (h : stepId registry rd contents opts i offT enc res cat context
      original = .ok out) :
    ∃ id, stepTrans registry rd contents opts i offT enc res cat id context =
      .ok out := by
  simp only [stepId] at h
  cases hfi : original.findIdx? (fun x => x = 0) with
  | none => simp only [hfi] at h; simp at h
  | some i2 =>
    simp only [hfi] at h
    cases hdec : enc.decode (original.take i2) with
    | none => simp only [hdec] at h; simp at h
    | some id =>
      simp only [hdec] at h
      exact ⟨id, h⟩

theorem stepEntry_ok {registry : EncodingRegistry} {rd : Endian}
    {contents : List Nat} {opts : ParseOptions} {i offO offT : Nat}
    {enc : Encoding} {res : Resolver} {cat : Strings} {enc' : Encoding}
    {res' : Resolver} {cat' : Strings}
    (h : stepEntry registry rd contents opts i offO offT enc res cat =
      .ok (enc', res', cat')) :
    ∃ id context ts, ts ≠ [] ∧
      cat' = insertMsg cat (Message.new id context ts) ∧
      (i ≠ 0 → id ≠ []) := by
  simp only [stepEntry] at h
  by_cases h8 : contents.length < offO + 8
  · rw [if_pos h8] at h; simp at h
  rw [if_neg h8] at h
  by_cases h9 : contents.length <
      readU32 rd contents (offO + 4) + readU32 rd contents offO + 1
  · rw [if_pos h9] at h; simp at h
  rw [if_neg h9] at h
  cases hfi : (slice contents (readU32 rd contents (offO + 4))
      (readU32 rd contents (offO + 4) + readU32 rd contents offO + 1)).findIdx?
      (fun x => x = 4) with
  | some idx =>
    simp only [hfi] at h
    cases hdec : enc.decode ((slice contents (readU32 rd contents (offO + 4))
        (readU32 rd contents (offO + 4) + readU32 rd contents offO + 1)).take
        idx) with
    | none => simp only [hdec] at h; simp at h
    | some ctx =>
      simp only [hdec] at h
      obtain ⟨id, hst⟩ := stepId_ok h
      obtain ⟨ts, h1, h2, h3⟩ := stepTrans_ok hst
      exact ⟨id, some ctx, ts, h1, h2, h3⟩
  | none =>
    simp only [hfi] at h
    obtain ⟨id, hst⟩ := stepId_ok h
    obtain ⟨ts, h1, h2, h3⟩ := stepTrans_ok hst
    exact ⟨id, none, ts, h1, h2, h3⟩

theorem parseEntries_plural {registry : EncodingRegistry} {rd : Endian}
    {contents : List Nat} {opts : ParseOptions} :
    ∀ (remaining i offO offT : Nat) (enc : Encoding) (res : Resolver)
      (cat strs : Strings) (resF : Resolver),
      parseEntries registry rd contents opts remaining i offO offT enc res
        cat = .ok (strs, resF) →
      (∀ k m, cat k = some m → m.plural = none) →
      ∀ k m, strs k = some m → m.plural = none := by
  intro remaining
  induction remaining with
  | zero =>
    intro i offO offT enc res cat strs resF h hP k m hk
    unfold parseEntries at h
    cases h
    exact hP k m hk
  | succ r ih =>
    intro i offO offT enc res cat strs resF h hP k m hk
    unfold parseEntries at h
    split at h
    · simp at h
    next enc' res' cat' hstep =>
      refine ih _ _ _ _ _ _ _ _ h ?_ k m hk
      intro k2 m2 hk2
      obtain ⟨id, ctx, ts, hne, hcat, -⟩ := stepEntry_ok hstep
      rw [hcat] at hk2
      rcases insertMsg_mem hk2 with hold | rfl
      · exact hP _ _ hold
      · rfl

/-- C4 counterexample: the original blob of the single entry of `c4bytes`
contains a NUL followed by the non-empty byte `b`, yet the parsed message
has no plural id (the claim demands `plural = some "b"`). -/
theorem c4_plural_id_counterexample :
    slice c4bytes 44 48 = ['a'.toNat, 0, 'b'.toNat, 0] ∧
    (parse_catalog reg0 c4bytes ParseOptions.new).map
      (fun c => (c.strings ['a']).map (fun m => m.plural)) = .ok (some none) ∧
    (some (some ['b']) : Option (Option Str)) ≠ some none :=
  ⟨by decide, by decide, by decide⟩

/-- C4 (amended): the parser ignores the plural part of every original
blob; each message inserted by a successful parse has `plural = none`,
its id being the bytes before the first NUL (after the optional context)
decoded under the current encoding. -/
theorem c4_parse_plural_none (registry : EncodingRegistry)
    (contents : List Nat) (opts : ParseOptions) (c : Catalog)
    (h : parse_catalog registry contents opts = .ok c) :
    ∀ k m, c.strings k = some m → m.plural = none := by
  simp only [parse_catalog] at h
  by_cases h28 : contents.length < 28
  · rw [if_pos h28] at h; simp at h
  rw [if_neg h28] at h
  cases hmg : get_read_u32_fn (contents.take 4) with
  | none => simp only [hmg] at h; simp at h
  | some rd =>
    simp only [hmg] at h
    by_cases hoff : contents.length < readU32 rd contents 12 ∨
        contents.length < readU32 rd contents 16
    · rw [if_pos hoff] at h; simp at h
    rw [if_neg hoff] at h
    cases hpe : parseEntries registry rd contents opts
        (readU32 rd contents 8) 0 (readU32 rd contents 12)
        (readU32 rd contents 16) (initialEncoding opts)
        (initialResolver opts) emptyStrings with
    | error er => simp only [hpe] at h; simp at h
    | ok pr =>
      obtain ⟨strs, resF⟩ := pr
      simp only [hpe] at h
      cases h
      exact parseEntries_plural _ _ _ _ _ _ _ _ _ hpe
        (fun k m hk => by simp [emptyStrings] at hk)

/-- Witness for C4 (amended) at `c4bytes`: the parsed message under key `a`
exists and has no plural id. -/
theorem c4_parse_plural_none_witness :
    ∃ m, (match parse_catalog reg0 c4bytes ParseOptions.new with
      | .ok c => c
      | .error _ => Catalog.new).strings ['a'] = some m ∧ m.plural = none :=
  ⟨Message.new ['a'] none [['x']], by decide,
    c4_parse_plural_none reg0 c4bytes ParseOptions.new _ rfl ['a'] _
      (by decide)⟩

/-- C8 (amended): inputs under 28 bytes fail with `Eof`; inputs of at
least 28 bytes with an unrecognized magic fail with `BadMagic`; a 28-byte
input with a valid magic, zero strings, and both table offsets within the
file yields an empty catalog. -/
theorem c8_header (registry : EncodingRegistry) (contents : List Nat)
    (opts : ParseOptions) :
    (contents.length < 28 → parse_catalog registry contents opts =
      .error (.e .Eof)) ∧
    (28 ≤ contents.length →
      contents.take 4 ≠ [0xde, 0x12, 0x04, 0x95] →
      contents.take 4 ≠ [0x95, 0x04, 0x12, 0xde] →
      parse_catalog registry contents opts = .error (.e .BadMagic)) ∧
    (∀ rd, contents.length = 28 →
      get_read_u32_fn (contents.take 4) = some rd →
      readU32 rd contents 8 = 0 →
      readU32 rd contents 12 ≤ 28 →
      readU32 rd contents 16 ≤ 28 →
      parse_catalog registry contents opts =
        .ok ⟨emptyStrings, initialResolver opts, none⟩) := by
  refine ⟨fun h => ?_, fun h h1 h2 => ?_, fun rd hl hm h0 ho ht => ?_⟩
  · simp only [parse_catalog]
    rw [if_pos h]
  · simp only [parse_catalog]
    rw [if_neg (by omega)]
    have hnone : get_read_u32_fn (contents.take 4) = none := by
      unfold get_read_u32_fn
      rw [if_neg h1, if_neg h2]
    simp only [hnone]
  · simp only [parse_catalog]
    rw [if_neg (by omega)]
    simp only [hm]
    rw [h0, if_neg (by push_neg; omega)]
    rfl

/-- Witness for C8 (amended): a 3-byte input, a padded bad magic, and the
all-zero 28-byte header. -/
theorem c8_header_witness :
    parse_catalog reg0 [1, 2, 3] ParseOptions.new = .error (.e .Eof) ∧
    parse_catalog reg0 ([1, 2, 3, 4] ++ List.replicate 24 0)
      ParseOptions.new = .error (.e .BadMagic) ∧
    parse_catalog reg0 c8good ParseOptions.new =
      .ok ⟨emptyStrings, initialResolver ParseOptions.new, none⟩ :=
  ⟨(c8_header reg0 [1, 2, 3] ParseOptions.new).1 (by decide),
    (c8_header reg0 ([1, 2, 3, 4] ++ List.replicate 24 0)
      ParseOptions.new).2.1 (by decide) (by decide) (by decide),
    (c8_header reg0 c8good ParseOptions.new).2.2 .le (by decide) (by decide)
      (by decide) (by decide) (by decide)⟩

/-- C8 counterexample: a 28-byte input with a valid magic and zero strings
whose original-table offset exceeds the file length parses to `Eof`, not
to an empty catalog. -/
theorem c8_n0_counterexample :
    c8bad.length = 28 ∧
    c8bad.take 4 = [0xde, 0x12, 0x04, 0x95] ∧
    readU32 .le c8bad 8 = 0 ∧ readU32 .be c8bad 8 = 0 ∧
    (parse_catalog reg0 c8bad ParseOptions.new).map (fun _ => (0 : Nat)) =
      .error (.e .Eof) :=
  ⟨by decide, by decide, by decide, by decide, by decide⟩

/-! Lemmas about the encoding discipline of the parser. -/

theorem metaUpdate_reg (r r' : EncodingRegistry) {opts : ParseOptions}
    {e : Encoding} (hf : opts.force_encoding = some e) :
    ∀ enc res ts, metaUpdate r opts enc res ts = metaUpdate r' opts enc res ts := by
  intro enc res ts
  unfold metaUpdate
  cases ts with
  | nil => rfl
  | cons t0 rest =>
    cases hm : parse_metadata t0 with
    | error er => simp only [hm]
    | ok map =>
      simp only [hm]
      cases hc : map.charset <;> simp only [hc, hf]

theorem stepInsert_reg (r r' : EncodingRegistry) {opts : ParseOptions}
    {e : Encoding} (hf : opts.force_encoding = some e) :
    ∀ enc res cat id context ts,
      stepInsert r opts enc res cat id context ts =
      stepInsert r' opts enc res cat id context ts := by
  intro enc res cat id context ts
  unfold stepInsert
  rw [metaUpdate_reg r r' hf enc res ts]

theorem stepTrans_reg (r r' : EncodingRegistry) {rd : Endian}
    {contents : List Nat} {opts : ParseOptions} {e : Encoding}
    (hf : opts.force_encoding = some e) :
    ∀ i offT enc res cat id context,
      stepTrans r rd contents opts i offT enc res cat id context =
      stepTrans r' rd contents opts i offT enc res cat id context := by
  intro i offT enc res cat id context
  unfold stepTrans
  simp only [stepInsert_reg r r' hf]

theorem stepId_reg (r r' : EncodingRegistry) {rd : Endian}
    {contents : List Nat} {opts : ParseOptions} {e : Encoding}
    (hf : opts.force_encoding = some e) :
    ∀ i offT enc res cat context original,
      stepId r rd contents opts i offT enc res cat context original =
      stepId r' rd contents opts i offT enc res cat context original := by
  intro i offT enc res cat context original
  unfold stepId
  simp only [stepTrans_reg r r' hf]

theorem stepEntry_reg (r r' : EncodingRegistry) {rd : Endian}
    {contents : List Nat} {opts : ParseOptions} {e : Encoding}
    (hf : opts.force_encoding = some e) :
    ∀ i offO offT enc res cat,
      stepEntry r rd contents opts i offO offT enc res cat =
      stepEntry r' rd contents opts i offO offT enc res cat := by
  intro i offO offT enc res cat
  unfold stepEntry
  simp only [stepId_reg r r' hf]

theorem parseEntries_reg (r r' : EncodingRegistry) {rd : Endian}
    {contents : List Nat} {opts : ParseOptions} {e : Encoding}
    (hf : opts.force_encoding = some e) :
    ∀ remaining i offO offT enc res cat,
      parseEntries r rd contents opts remaining i offO offT enc res cat =
      parseEntries r' rd contents opts remaining i offO offT enc res cat := by
  intro remaining
  induction remaining with
  | zero => intro i offO offT enc res cat; rfl
  | succ k ih =>
    intro i offO offT enc res cat
    unfold parseEntries
    rw [stepEntry_reg r r' hf]
    cases h' : stepEntry r' rd contents opts i offO offT enc res cat with
    | error er => rfl
    | ok out =>
      obtain ⟨enc', res', cat'⟩ := out
      exact ih (i + 1) (offO + 8) (offT + 8) enc' res' cat'

theorem parse_catalog_reg (r r' : EncodingRegistry) {contents : List Nat}
    {opts : ParseOptions} {e : Encoding} (hf : opts.force_encoding = some e) :
    parse_catalog r contents opts = parse_catalog r' contents opts := by
  unfold parse_catalog
  cases get_read_u32_fn (contents.take 4) with
  | none => rfl
  | some rd => simp only [parseEntries_reg r r' hf]

theorem metaUpdate_enc {r : EncodingRegistry} {opts : ParseOptions}
    {e enc : Encoding} {res : Resolver} {ts : List Str}
    {out : Encoding × Resolver} (hf : opts.force_encoding = some e)
    (h : metaUpdate r opts enc res ts = .ok out) : out.1 = enc := by
  unfold metaUpdate at h
  cases ts with
  | nil => simp at h
  | cons t0 rest =>
    cases hm : parse_metadata t0 with
    | error er => simp only [hm] at h; simp at h
    | ok map =>
      simp only [hm] at h
      cases hc : map.charset <;> simp only [hc, hf] at h <;> (cases h; rfl)

theorem stepInsert_enc {r : EncodingRegistry} {opts : ParseOptions}
    {e enc : Encoding} {res : Resolver} {cat : Strings} {id : Str}
    {context : Option Str} {ts : List Str}
    {out : Encoding × Resolver × Strings} (hf : opts.force_encoding = some e)
    (h : stepInsert r opts enc res cat id context ts = .ok out) :
    out.1 = enc := by
  unfold stepInsert at h
  by_cases hid : id = []
  · rw [if_pos hid] at h
    cases hmu : metaUpdate r opts enc res ts with
    | error er => rw [hmu] at h; simp at h
    | ok pr =>
      obtain ⟨e2, r2⟩ := pr
      rw [hmu] at h
      cases h
      exact metaUpdate_enc hf hmu
  · rw [if_neg hid] at h
    cases h
    rfl

theorem stepInsert_keep {r : EncodingRegistry} {opts : ParseOptions}
    {enc : Encoding} {res : Resolver} {cat : Strings} {id : Str}
    {context : Option Str} {ts : List Str}
    {out : Encoding × Resolver × Strings} (hid : id ≠ [])
    (h : stepInsert r opts enc res cat id context ts = .ok out) :
    out.1 = enc ∧ out.2.1 = res := by
  unfold stepInsert at h
  rw [if_neg hid] at h
  cases h
  exact ⟨rfl, rfl⟩

theorem stepTrans_enc {r : EncodingRegistry} {rd : Endian}
    {contents : List Nat} {opts : ParseOptions} {i offT : Nat}
    {e enc : Encoding} {res : Resolver} {cat : Strings} {id : Str}
    {context : Option Str} {out : Encoding × Resolver × Strings}
    (hf : opts.force_encoding = some e)
    (h : stepTrans r rd contents opts i offT enc res cat id context =
      .ok out) : out.1 = enc := by
  simp only [stepTrans] at h
  by_cases hmis : id = [] ∧ i ≠ 0
  · rw [if_pos hmis] at h; simp at h
  rw [if_neg hmis] at h
  by_cases h8 : contents.length < offT + 8
  · rw [if_pos h8] at h; simp at h
  rw [if_neg h8] at h
  by_cases h9 : contents.length <
      readU32 rd contents (offT + 4) + readU32 rd contents offT + 1
  · rw [if_pos h9] at h; simp at h
  rw [if_neg h9] at h
  cases hdec : decodeList enc (splitSeq ([0] : List Nat)
      (slice contents (readU32 rd contents (offT + 4))
        (readU32 rd contents (offT + 4) + readU32 rd contents offT))) with
  | none => simp only [hdec] at h; simp at h
  | some translated =>
    simp only [hdec] at h
    exact stepInsert_enc hf h

theorem stepTrans_keep {r : EncodingRegistry} {rd : Endian}
    {contents : List Nat} {opts : ParseOptions} {i offT : Nat}
    {enc : Encoding} {res : Resolver} {cat : Strings} {id : Str}
    {context : Option Str} {out : Encoding × Resolver × Strings}
    (hi : i ≠ 0)
    (h : stepTrans r rd contents opts i offT enc res cat id context =
      .ok out) : out.1 = enc ∧ out.2.1 = res := by
  simp only [stepTrans] at h
  by_cases hmis : id = [] ∧ i ≠ 0
  · rw [if_pos hmis] at h; simp at h
  rw [if_neg hmis] at h
  have hid : id ≠ [] := fun hnil => hmis ⟨hnil, hi⟩
  by_cases h8 : contents.length < offT + 8
  · rw [if_pos h8] at h; simp at h
  rw [if_neg h8] at h
  by_cases h9 : contents.length <
      readU32 rd contents (offT + 4) + readU32 rd contents offT + 1
  · rw [if_pos h9] at h; simp at h
  rw [if_neg h9] at h
  cases hdec : decodeList enc (splitSeq ([0] : List Nat)
      (slice contents (readU32 rd contents (offT + 4))
        (readU32 rd contents (offT + 4) + readU32 rd contents offT))) with
  | none => simp only [hdec] at h; simp at h
  | some translated =>
    simp only [hdec] at h
    exact stepInsert_keep hid h

theorem stepId_enc {r : EncodingRegistry} {rd : Endian} {contents : List Nat}
    {opts : ParseOptions} {i offT : Nat} {e enc : Encoding} {res : Resolver}
    {cat : Strings} {context : Option Str} {original : List Nat}
    {out : Encoding × Resolver × Strings} (hf : opts.force_encoding = some e)
    (h : stepId r rd contents opts i offT enc res cat context original =
      .ok out) : out.1 = enc := by
  obtain ⟨id, hst⟩ := stepId_ok h
  exact stepTrans_enc hf hst

theorem stepEntry_enc {r : EncodingRegistry} {rd : Endian}
    {contents : List Nat} {opts : ParseOptions} {i offO offT : Nat}
    {e enc : Encoding} {res : Resolver} {cat : Strings}
    {out : Encoding × Resolver × Strings} (hf : opts.force_encoding = some e)
    (h : stepEntry r rd contents opts i offO offT enc res cat = .ok out) :
    out.1 = enc := by
  simp only [stepEntry] at h
  by_cases h8 : contents.length < offO + 8
  · rw [if_pos h8] at h; simp at h
  rw [if_neg h8] at h
  by_cases h9 : contents.length <
      readU32 rd contents (offO + 4) + readU32 rd contents offO + 1
  · rw [if_pos h9] at h; simp at h
  rw [if_neg h9] at h
  cases hfi : (slice contents (readU32 rd contents (offO + 4))
      (readU32 rd contents (offO + 4) + readU32 rd contents offO + 1)).findIdx?
      (fun x => x = 4) with
  | some idx =>
    simp only [hfi] at h
    cases hdec : enc.decode ((slice contents (readU32 rd contents (offO + 4))
        (readU32 rd contents (offO + 4) + readU32 rd contents offO + 1)).take
        idx) with
    | none => simp only [hdec] at h; simp at h
    | some ctx =>
      simp only [hdec] at h
      exact stepId_enc hf h
  | none =>
    simp only [hfi] at h
    exact stepId_enc hf h

theorem stepEntry_keep {r : EncodingRegistry} {rd : Endian}
    {contents : List Nat} {opts : ParseOptions} {i offO offT : Nat}
    {enc : Encoding} {res : Resolver} {cat : Strings}
    {out : Encoding × Resolver × Strings} (hi : i ≠ 0)
    (h : stepEntry r rd contents opts i offO offT enc res cat = .ok out) :
    out.1 = enc ∧ out.2.1 = res := by
  simp only [stepEntry] at h
  by_cases h8 : contents.length < offO + 8
  · rw [if_pos h8] at h; simp at h
  rw [if_neg h8] at h
  by_cases h9 : contents.length <
      readU32 rd contents (offO + 4) + readU32 rd contents offO + 1
  · rw [if_pos h9] at h; simp at h
  rw [if_neg h9] at h
  cases hfi : (slice contents (readU32 rd contents (offO + 4))
      (readU32 rd contents (offO + 4) + readU32 rd contents offO + 1)).findIdx?
      (fun x => x = 4) with
  | some idx =>
    simp only [hfi] at h
    cases hdec : enc.decode ((slice contents (readU32 rd contents (offO + 4))
        (readU32 rd contents (offO + 4) + readU32 rd contents offO + 1)).take
        idx) with
    | none => simp only [hdec] at h; simp at h
    | some ctx =>
      simp only [hdec] at h
      obtain ⟨id, hst⟩ := stepId_ok h
      exact stepTrans_keep hi hst
  | none =>
    simp only [hfi] at h
    obtain ⟨id, hst⟩ := stepId_ok h
    exact stepTrans_keep hi hst

/-- C5: the active encoding follows strict precedence. With a forced
encoding the registry is never consulted and no step ever switches the
threaded encoding; without one, the initial encoding is UTF-8, only the
index-0 (metadata) entry can switch it — to the encoding the registry
assigns to the declared charset, failing with `UnknownEncoding` on an
unrecognized label — and every later entry leaves it unchanged. -/
theorem c5_encoding_precedence :
    (∀ (r r' : EncodingRegistry) (contents : List Nat) (opts : ParseOptions)
      (e : Encoding), opts.force_encoding = some e →
      parse_catalog r contents opts = parse_catalog r' contents opts) ∧
    (∀ (r : EncodingRegistry) (rd : Endian) (contents : List Nat)
      (opts : ParseOptions) (i offO offT : Nat) (enc : Encoding)
      (res : Resolver) (cat : Strings) (out : Encoding × Resolver × Strings)
      (e : Encoding), opts.force_encoding = some e →
      stepEntry r rd contents opts i offO offT enc res cat = .ok out →
      out.1 = enc) ∧
    (∀ fp, initialEncoding ⟨none, fp⟩ = utf8Encoding) ∧
    (∀ e fp, initialEncoding ⟨some e, fp⟩ = e) ∧
    (∀ (r : EncodingRegistry) (rd : Endian) (contents : List Nat)
      (opts : ParseOptions) (i offO offT : Nat) (enc : Encoding)
      (res : Resolver) (cat : Strings) (out : Encoding × Resolver × Strings),
      i ≠ 0 →
      stepEntry r rd contents opts i offO offT enc res cat = .ok out →
      out.1 = enc) ∧
    (∀ (r : EncodingRegistry) (fp : Option (Nat → Nat)) (enc : Encoding)
      (res : Resolver) (t0 : Str) (rest : List Str) (map : MetadataMap),
      parse_metadata t0 = .ok map →
      (∀ c e', map.charset = some c → r c = some e' →
        metaUpdate r ⟨none, fp⟩ enc res (t0 :: rest) =
          .ok (e', metaResolver map res)) ∧
      (∀ c, map.charset = some c → r c = none →
        metaUpdate r ⟨none, fp⟩ enc res (t0 :: rest) =
          .error (.e .UnknownEncoding)) ∧
      (map.charset = none →
        metaUpdate r ⟨none, fp⟩ enc res (t0 :: rest) =
          .ok (enc, metaResolver map res))) := by
  refine ⟨fun r r' contents opts e hf => parse_catalog_reg r r' hf,
    fun r rd contents opts i offO offT enc res cat out e hf h =>
      stepEntry_enc hf h,
    fun fp => rfl, fun e fp => rfl,
    fun r rd contents opts i offO offT enc res cat out hi h =>
      (stepEntry_keep hi h).1,
    fun r fp enc res t0 rest map hm => ⟨?_, ?_, ?_⟩⟩
  · intro c e' hc hr
    unfold metaUpdate
    simp only [hm, hc, hr]
  · intro c hc hr
    unfold metaUpdate
    simp only [hm, hc, hr]
  · intro hc
    unfold metaUpdate
    simp only [hm, hc]

/-! Witness material for the encoding claim. -/

/-- A registry recognizing exactly the label `zzz` (as UTF-8). -/
def regZ : EncodingRegistry :=
  fun l => if l = "zzz".toList then some utf8Encoding else none

/-- Options forcing the UTF-8 encoding. -/
def optsF : ParseOptions := ⟨some utf8Encoding, none⟩

/-- A metadata-only MO file declaring charset `zzz`. -/
def mo5 : List Nat := metaMO "Content-Type: text/plain; charset=zzz\n"

/-- The metadata blob of `mo5`. -/
def t5 : Str := "Content-Type: text/plain; charset=zzz\n".toList

/-- The metadata map parsed from `t5`. -/
def map5 : MetadataMap :=
  [("Content-Type".toList, "text/plain; charset=zzz".toList)]

/-- The step outcome for the single entry of `c4bytes`. -/
def out5 : Encoding × Resolver × Strings :=
  (utf8Encoding, .Function default_resolver,
    insertMsg emptyStrings (Message.new ['a'] none [['x']]))

/-- Witness for C5: forced parses agree under any registry; a forced and a
non-zero-index step keep the encoding; the initial encoding is UTF-8 only
without a forced one; the metadata step switches to the registry's
encoding for the declared charset and fails with `UnknownEncoding` when
the registry does not know the label. -/
theorem c5_encoding_precedence_witness :
    parse_catalog reg0 mo5 optsF = parse_catalog regZ mo5 optsF ∧
    out5.1 = utf8Encoding ∧
    initialEncoding ⟨none, none⟩ = utf8Encoding ∧
    initialEncoding ⟨some utf8Encoding, none⟩ = utf8Encoding ∧
    metaUpdate regZ ⟨none, none⟩ utf8Encoding (.Function default_resolver)
      [t5] = .ok (utf8Encoding, metaResolver map5 (.Function default_resolver)) ∧
    metaUpdate reg0 ⟨none, none⟩ utf8Encoding (.Function default_resolver)
      [t5] = .error (.e .UnknownEncoding) :=
  ⟨c5_encoding_precedence.1 reg0 regZ mo5 optsF utf8Encoding rfl,
    c5_encoding_precedence.2.1 reg0 .le c4bytes optsF 0 28 36 utf8Encoding
      (.Function default_resolver) emptyStrings out5 utf8Encoding rfl rfl,
    c5_encoding_precedence.2.2.1 none,
    c5_encoding_precedence.2.2.2.1 utf8Encoding none,
    (c5_encoding_precedence.2.2.2.2.2 regZ none utf8Encoding
      (.Function default_resolver) t5 [] map5 (by decide)).1 "zzz".toList
      utf8Encoding (by decide) rfl,
    ((c5_encoding_precedence.2.2.2.2.2 reg0 none utf8Encoding
      (.Function default_resolver) t5 [] map5 (by decide)).2.1 "zzz".toList
      (by decide) rfl : _)⟩

/-! The metadata entry stays reachable under the empty key. -/

theorem parseEntries_keepEmpty {r : EncodingRegistry} {rd : Endian}
    {contents : List Nat} {opts : ParseOptions} :
    ∀ (remaining i offO offT : Nat) (enc : Encoding) (res : Resolver)
      (cat strs : Strings) (resF : Resolver),
      1 ≤ i →
      parseEntries r rd contents opts remaining i offO offT enc res cat =
        .ok (strs, resF) →
      strs [] = cat [] := by
  intro remaining
  induction remaining with
  | zero =>
    intro i offO offT enc res cat strs resF hi h
    unfold parseEntries at h
    cases h
    rfl
  | succ k ih =>
    intro i offO offT enc res cat strs resF hi h
    unfold parseEntries at h
    cases hs : stepEntry r rd contents opts i offO offT enc res cat with
    | error er => rw [hs] at h; simp at h
    | ok out =>
      obtain ⟨enc', res', cat'⟩ := out
      rw [hs] at h
      have h2 := ih (i + 1) (offO + 8) (offT + 8) enc' res' cat' strs resF
        (by omega) h
      obtain ⟨id, ctx, ts, hne, hcat, hid⟩ := stepEntry_ok hs
      have hidne : id ≠ [] := hid (by omega)
      rw [h2, hcat]
      simp only [insertMsg]
      rw [if_neg ?hkey]
      case hkey =>
        cases ctx with
        | none =>
          simp only [Message.new]
          exact fun hh => hidne hh.symm
        | some cv => simp [Message.new, key_with_context]

/-- C10: if a successful parse starts with a metadata record — the step at
index 0 succeeds and maps the empty key to a message — then the final
catalog still maps the empty key to that very message, that message has
the empty id and a non-empty translation list, and `gettext ""` returns
its first translated form (the raw header blob) rather than the empty
string. -/
theorem c10_metadata_empty_key (registry : EncodingRegistry)
    (contents : List Nat) (opts : ParseOptions) (rd : Endian) (c : Catalog)
    (m : Message) (out0 : Encoding × Resolver × Strings)
    (hmg : get_read_u32_fn (contents.take 4) = some rd)
    (hnum : 1 ≤ readU32 rd contents 8)
    (hstep : stepEntry registry rd contents opts 0 (readU32 rd contents 12)
      (readU32 rd contents 16) (initialEncoding opts) (initialResolver opts)
      emptyStrings = .ok out0)
    (hm : out0.2.2 [] = some m)
    (h : parse_catalog registry contents opts = .ok c) :
    c.strings [] = some m ∧ m.id = [] ∧ m.translated ≠ [] ∧
    c.gettext [] = m.translated.headD [] := by
  obtain ⟨e0, r0, c0⟩ := out0
  obtain ⟨id, ctx, ts, hne, hcat, -⟩ := stepEntry_ok hstep
  simp only at hm
  rw [hcat] at hm
  have hmsg : m = Message.new id ctx ts ∧ id = [] ∧ ctx = none := by
    simp only [insertMsg, Message.new] at hm
    cases ctx with
    | some cv =>
      simp only [] at hm
      rw [if_neg (by simp [key_with_context])] at hm
      simp [emptyStrings] at hm
    | none =>
      simp only [] at hm
      by_cases hk : ([] : Str) = id
      · rw [if_pos hk] at hm
        cases hm
        exact ⟨rfl, hk.symm, rfl⟩
      · rw [if_neg hk] at hm
        simp [emptyStrings] at hm
  obtain ⟨rfl, rfl, rfl⟩ := hmsg
  simp only [parse_catalog] at h
  by_cases h28 : contents.length < 28
  · rw [if_pos h28] at h; simp at h
  rw [if_neg h28] at h
  simp only [hmg] at h
  by_cases hoff : contents.length < readU32 rd contents 12 ∨
      contents.length < readU32 rd contents 16
  · rw [if_pos hoff] at h; simp at h
  rw [if_neg hoff] at h
  cases hpe : parseEntries registry rd contents opts
      (readU32 rd contents 8) 0 (readU32 rd contents 12)
      (readU32 rd contents 16) (initialEncoding opts)
      (initialResolver opts) emptyStrings with
  | error er => simp only [hpe] at h; simp at h
  | ok pr =>
    obtain ⟨strs, resF⟩ := pr
    simp only [hpe] at h
    cases h
    obtain ⟨k, hk⟩ : ∃ k, readU32 rd contents 8 = k + 1 :=
      ⟨readU32 rd contents 8 - 1, by omega⟩
    rw [hk] at hpe
    unfold parseEntries at hpe
    rw [hstep] at hpe
    have hkeep := parseEntries_keepEmpty k 1 (readU32 rd contents 12 + 8)
      (readU32 rd contents 16 + 8) e0 r0 c0 strs resF (by omega) hpe
    have hs0 : strs [] = some (Message.new [] none ts) := by
      rw [hkeep, hcat]
      simp [insertMsg, Message.new]
    refine ⟨hs0, rfl, hne, ?_⟩
    show ((strs []).bind (fun mm => mm.get_translated 0)).getD [] = _
    rw [hs0]
    cases ts with
    | nil => exact absurd rfl hne
    | cons a t => simp [Message.new, Message.get_translated]

/-- A metadata-only MO file with a plain Content-Type header. -/
def mo10 : List Nat := metaMO "Content-Type: text/plain\n"

/-- The metadata message parsed out of `mo10`. -/
def msg10 : Message :=
  Message.new [] none ["Content-Type: text/plain\n".toList]

/-- The outcome of the index-0 step on `mo10`. -/
def out10 : Encoding × Resolver × Strings :=
  (utf8Encoding, .Function default_resolver, insertMsg emptyStrings msg10)

/-- The catalog parsed out of `mo10`. -/
def c10cat : Catalog :=
  match parse_catalog reg0 mo10 ParseOptions.new with
  | .ok c => c
  | .error _ => Catalog.new

/-- Witness for C10 at `mo10`: the header entry sits under the empty key
and `gettext ""` returns the raw header blob. -/
theorem c10_metadata_empty_key_witness :
    c10cat.strings [] = some msg10 ∧ msg10.id = [] ∧
    msg10.translated ≠ [] ∧
    c10cat.gettext [] = msg10.translated.headD [] :=
  c10_metadata_empty_key reg0 mo10 ParseOptions.new .le c10cat msg10 out10
    (by decide) (by decide) rfl (by decide) rfl

/-- Options forcing the plural function that always answers 5. -/
def opts2 : ParseOptions := ⟨none, some (fun _ => 5)⟩

/-- A metadata-only MO file declaring the plural formula `0`. -/
def c2bytes : List Nat := metaMO "Plural-Forms: plural=0\n"

/-- C2 (code bug): the caller forces a plural function (initially
installed, resolving every count to 5), the file's metadata declares
`Plural-Forms: plural=0`, and after the parse the catalog's resolver
answers 0 — the metadata branch of `parse_catalog` reassigned the
resolver to the compiled expression with no `force_plural` guard,
discarding the caller-forced function that the claim (and the
`force_plural` documentation) says must win. -/
theorem c2_resolver_precedence_bug :
    opts2.force_plural = some (fun _ => 5) ∧
    (initialResolver opts2).resolve 7 = 5 ∧
    (parse_catalog reg0 c2bytes opts2).map
      (fun c => c.resolver.resolve 7) = .ok 0 ∧
    (0 : Nat) ≠ 5 :=
  ⟨rfl, by decide, by decide, by decide⟩

/-! Fuel adequacy for the plural-expression parser: any fuel above the
stage measure computes the same result, so `parseStage` is the unbounded
Rust recursion. -/

theorem parseStageGo_fuel : ∀ (f1 f2 : Nat) (st : Stage) (src : Str),
    stageMeasure st src < f1 → stageMeasure st src < f2 →
    parseStageGo f1 st src = parseStageGo f2 st src := by
  intro f1
  induction f1 with
  | zero =>
    intro f2 st src h1 h2
    omega
  | succ g1 ih =>
    intro f2 st src h1 h2
    cases f2 with
    | zero => omega
    | succ g2 =>
      cases st with
      | top =>
        simp only [parseStageGo]
        refine ih g2 .parens (trim src) ?_ ?_ <;>
          (have ht := trim_length_le src
           simp only [stageMeasure, Stage.rank] at h1 h2 ⊢
           omega)
      | parens =>
        simp only [parseStageGo]
        by_cases hh : src.head? = some '('
        · rw [if_pos hh, if_pos hh]
          have hpos : 0 < src.length := by
            cases src with
            | nil => simp at hh
            | cons a t => simp
          by_cases he :
              (((src.drop 1).dropLast).foldl parenScanStep
                ((1, 2) : Int × Nat)).2 = src.length
          · rw [if_pos he, if_pos he]
            refine ih g2 .top (trim ((src.drop 1).dropLast)) ?_ ?_ <;>
              (have ht := trim_length_le ((src.drop 1).dropLast)
               simp only [List.length_dropLast, List.length_drop] at ht
               simp only [stageMeasure, Stage.rank] at h1 h2 ⊢
               omega)
          · rw [if_neg he, if_neg he]
            refine ih g2 .pAnd (trim src) ?_ ?_ <;>
              (have ht := trim_length_le src
               simp only [stageMeasure, Stage.rank] at h1 h2 ⊢
               omega)
        · rw [if_neg hh, if_neg hh]
          refine ih g2 .pAnd (trim src) ?_ ?_ <;>
            (have ht := trim_length_le src
             simp only [stageMeasure, Stage.rank] at h1 h2 ⊢
             omega)
      | pAnd =>
        simp only [parseStageGo]
        cases hio : index_of src ['&', '&'] with
        | none =>
          simp only [hio]
          refine ih g2 .pOr src ?_ ?_ <;>
            (simp only [stageMeasure, Stage.rank] at h1 h2 ⊢; omega)
        | some i =>
          simp only [hio]
          have hb := (index_of_spec hio).1
          simp only [List.length_cons, List.length_nil] at hb
          rw [ih g2 .top (src.take i) (by
                simp only [stageMeasure, Stage.rank, List.length_take] at h1 ⊢
                omega)
              (by
                simp only [stageMeasure, Stage.rank, List.length_take] at h2 ⊢
                omega),
            ih g2 .top (src.drop (i + 2)) (by
                simp only [stageMeasure, Stage.rank, List.length_drop] at h1 ⊢
                omega)
              (by
                simp only [stageMeasure, Stage.rank, List.length_drop] at h2 ⊢
                omega)]
      | pOr =>
        simp only [parseStageGo]
        cases hio : index_of src ['|', '|'] with
        | none =>
          simp only [hio]
          refine ih g2 .pTernary src ?_ ?_ <;>
            (simp only [stageMeasure, Stage.rank] at h1 h2 ⊢; omega)
        | some i =>
          simp only [hio]
          have hb := (index_of_spec hio).1
          simp only [List.length_cons, List.length_nil] at hb
          rw [ih g2 .top (src.take i) (by
                simp only [stageMeasure, Stage.rank, List.length_take] at h1 ⊢
                omega)
              (by
                simp only [stageMeasure, Stage.rank, List.length_take] at h2 ⊢
                omega),
            ih g2 .top (src.drop (i + 2)) (by
                simp only [stageMeasure, Stage.rank, List.length_drop] at h1 ⊢
                omega)
              (by
                simp only [stageMeasure, Stage.rank, List.length_drop] at h2 ⊢
                omega)]
      | pTernary =>
        simp only [parseStageGo]
        cases hio : index_of src ['?'] with
        | none =>
          simp only [hio]
          refine ih g2 .pGe src ?_ ?_ <;>
            (simp only [stageMeasure, Stage.rank] at h1 h2 ⊢; omega)
        | some i =>
          simp only [hio]
          cases hio2 : index_of src [':'] with
          | none => simp only [hio2]
          | some l =>
            simp only [hio2]
            have hb := (index_of_spec hio).1
            have hb2 := (index_of_spec hio2).1
            simp only [List.length_cons, List.length_nil] at hb hb2
            rw [ih g2 .top (src.take i) (by
                  simp only [stageMeasure, Stage.rank, List.length_take] at h1 ⊢
                  omega)
                (by
                  simp only [stageMeasure, Stage.rank, List.length_take] at h2 ⊢
                  omega),
              ih g2 .top ((src.take l).drop (i + 1)) (by
                  simp only [stageMeasure, Stage.rank, List.length_take,
                    List.length_drop] at h1 ⊢
                  omega)
                (by
                  simp only [stageMeasure, Stage.rank, List.length_take,
                    List.length_drop] at h2 ⊢
                  omega),
              ih g2 .top (src.drop (l + 1)) (by
                  simp only [stageMeasure, Stage.rank, List.length_drop] at h1 ⊢
                  omega)
                (by
                  simp only [stageMeasure, Stage.rank, List.length_drop] at h2 ⊢
                  omega)]
      | pGe =>
        simp only [parseStageGo]
        cases hio : index_of src ['>', '='] with
        | none =>
          simp only [hio]
          refine ih g2 .pGt src ?_ ?_ <;>
            (simp only [stageMeasure, Stage.rank] at h1 h2 ⊢; omega)
        | some i =>
          simp only [hio]
          have hb := (index_of_spec hio).1
          simp only [List.length_cons, List.length_nil] at hb
          rw [ih g2 .top (src.take i) (by
                simp only [stageMeasure, Stage.rank, List.length_take] at h1 ⊢
                omega)
              (by
                simp only [stageMeasure, Stage.rank, List.length_take] at h2 ⊢
                omega),
            ih g2 .top (src.drop (i + 2)) (by
                simp only [stageMeasure, Stage.rank, List.length_drop] at h1 ⊢
                omega)
              (by
                simp only [stageMeasure, Stage.rank, List.length_drop] at h2 ⊢
                omega)]
      | pGt =>
        simp only [parseStageGo]
        cases hio : index_of src ['>'] with
        | none =>
          simp only [hio]
          refine ih g2 .pLe src ?_ ?_ <;>
            (simp only [stageMeasure, Stage.rank] at h1 h2 ⊢; omega)
        | some i =>
          simp only [hio]
          have hb := (index_of_spec hio).1
          simp only [List.length_cons, List.length_nil] at hb
          rw [ih g2 .top (src.take i) (by
                simp only [stageMeasure, Stage.rank, List.length_take] at h1 ⊢
                omega)
              (by
                simp only [stageMeasure, Stage.rank, List.length_take] at h2 ⊢
                omega),
            ih g2 .top (src.drop (i + 1)) (by
                simp only [stageMeasure, Stage.rank, List.length_drop] at h1 ⊢
                omega)
              (by
                simp only [stageMeasure, Stage.rank, List.length_drop] at h2 ⊢
                omega)]
      | pLe =>
        simp only [parseStageGo]
        cases hio : index_of src ['<', '='] with
        | none =>
          simp only [hio]
          refine ih g2 .pLt src ?_ ?_ <;>
            (simp only [stageMeasure, Stage.rank] at h1 h2 ⊢; omega)
        | some i =>
          simp only [hio]
          have hb := (index_of_spec hio).1
          simp only [List.length_cons, List.length_nil] at hb
          rw [ih g2 .top (src.take i) (by
                simp only [stageMeasure, Stage.rank, List.length_take] at h1 ⊢
                omega)
              (by
                simp only [stageMeasure, Stage.rank, List.length_take] at h2 ⊢
                omega),
            ih g2 .top (src.drop (i + 2)) (by
                simp only [stageMeasure, Stage.rank, List.length_drop] at h1 ⊢
                omega)
              (by
                simp only [stageMeasure, Stage.rank, List.length_drop] at h2 ⊢
                omega)]
      | pLt =>
        simp only [parseStageGo]
        cases hio : index_of src ['<'] with
        | none =>
          simp only [hio]
          refine ih g2 .pEq src ?_ ?_ <;>
            (simp only [stageMeasure, Stage.rank] at h1 h2 ⊢; omega)
        | some i =>
          simp only [hio]
          have hb := (index_of_spec hio).1
          simp only [List.length_cons, List.length_nil] at hb
          rw [ih g2 .top (src.take i) (by
                simp only [stageMeasure, Stage.rank, List.length_take] at h1 ⊢
                omega)
              (by
                simp only [stageMeasure, Stage.rank, List.length_take] at h2 ⊢
                omega),
            ih g2 .top (src.drop (i + 1)) (by
                simp only [stageMeasure, Stage.rank, List.length_drop] at h1 ⊢
                omega)
              (by
                simp only [stageMeasure, Stage.rank, List.length_drop] at h2 ⊢
                omega)]
      | pEq =>
        simp only [parseStageGo]
        cases hio : index_of src ['=', '='] with
        | none =>
          simp only [hio]
          refine ih g2 .pNeq src ?_ ?_ <;>
            (simp only [stageMeasure, Stage.rank] at h1 h2 ⊢; omega)
        | some i =>
          simp only [hio]
          have hb := (index_of_spec hio).1
          simp only [List.length_cons, List.length_nil] at hb
          rw [ih g2 .top (src.take i) (by
                simp only [stageMeasure, Stage.rank, List.length_take] at h1 ⊢
                omega)
              (by
                simp only [stageMeasure, Stage.rank, List.length_take] at h2 ⊢
                omega),
            ih g2 .top (src.drop (i + 2)) (by
                simp only [stageMeasure, Stage.rank, List.length_drop] at h1 ⊢
                omega)
              (by
                simp only [stageMeasure, Stage.rank, List.length_drop] at h2 ⊢
                omega)]
      | pNeq =>
        simp only [parseStageGo]
        cases hio : index_of src ['!', '='] with
        | none =>
          simp only [hio]
          refine ih g2 .pMod src ?_ ?_ <;>
            (simp only [stageMeasure, Stage.rank] at h1 h2 ⊢; omega)
        | some i =>
          simp only [hio]
          have hb := (index_of_spec hio).1
          simp only [List.length_cons, List.length_nil] at hb
          rw [ih g2 .top (src.take i) (by
                simp only [stageMeasure, Stage.rank, List.length_take] at h1 ⊢
                omega)
              (by
                simp only [stageMeasure, Stage.rank, List.length_take] at h2 ⊢
                omega),
            ih g2 .top (src.drop (i + 2)) (by
                simp only [stageMeasure, Stage.rank, List.length_drop] at h1 ⊢
                omega)
              (by
                simp only [stageMeasure, Stage.rank, List.length_drop] at h2 ⊢
                omega)]
      | pMod =>
        simp only [parseStageGo]
        cases hio : index_of src ['%'] with
        | none =>
          simp only [hio]
          refine ih g2 .pNot (trim src) ?_ ?_ <;>
            (have ht := trim_length_le src
             simp only [stageMeasure, Stage.rank] at h1 h2 ⊢
             omega)
        | some i =>
          simp only [hio]
          have hb := (index_of_spec hio).1
          simp only [List.length_cons, List.length_nil] at hb
          rw [ih g2 .top (src.take i) (by
                simp only [stageMeasure, Stage.rank, List.length_take] at h1 ⊢
                omega)
              (by
                simp only [stageMeasure, Stage.rank, List.length_take] at h2 ⊢
                omega),
            ih g2 .top (src.drop (i + 1)) (by
                simp only [stageMeasure, Stage.rank, List.length_drop] at h1 ⊢
                omega)
              (by
                simp only [stageMeasure, Stage.rank, List.length_drop] at h2 ⊢
                omega)]
      | pNot =>
        simp only [parseStageGo]
        by_cases hnot : index_of src ['!'] = some 0
        · rw [if_pos hnot, if_pos hnot]
          have hb := (index_of_spec hnot).1
          simp only [List.length_cons, List.length_nil] at hb
          rw [ih g2 .top (src.drop 1) (by
                simp only [stageMeasure, Stage.rank, List.length_drop] at h1 ⊢
                omega)
              (by
                simp only [stageMeasure, Stage.rank, List.length_drop] at h2 ⊢
                omega)]
        · rw [if_neg hnot, if_neg hnot]
          refine ih g2 .pInt (trim src) ?_ ?_ <;>
            (have ht := trim_length_le src
             simp only [stageMeasure, Stage.rank] at h1 h2 ⊢
             omega)
      | pInt =>
        simp only [parseStageGo]
        cases hp : parseU64 src with
        | some x => simp only [hp]
        | none =>
          simp only [hp]
          refine ih g2 .pN (trim src) ?_ ?_ <;>
            (have ht := trim_length_le src
             simp only [stageMeasure, Stage.rank] at h1 h2 ⊢
             omega)
      | pN => rfl

/-- `parseStage` computes `parseStageGo` at any adequate fuel. -/
theorem parseStage_eq_go {st : Stage} {src : Str} {f : Nat}
    (hf : stageMeasure st src < f) :
    parseStage st src = parseStageGo f st src :=
  parseStageGo_fuel (stageMeasure st src + 1) f st src (Nat.lt_succ_self _) hf

/-! Parenthesis-balance bookkeeping for the plural parser. -/

theorem parenDelta_ge (c : Char) : -1 ≤ parenDelta c := by
  unfold parenDelta
  split
  · omega
  · split <;> omega

theorem ws_delta {c : Char} (h : ws c = true) : parenDelta c = 0 := by
  have h4 : c = ' ' ∨ c = '\t' ∨ c = '\r' ∨ c = '\n' := by
    simpa [ws, Char.isWhitespace, or_assoc] using h
  rcases h4 with h | h | h | h <;> subst h <;> decide

/-- Every prefix of `s` has nonnegative parenthesis balance. -/
def PrefOK (s : Str) : Prop := ∀ k, 0 ≤ balI (s.take k)

theorem prefOK_append {a b : Str} (ha : PrefOK a) (hb : PrefOK b) :
    PrefOK (a ++ b) := by
  intro k
  rw [List.take_append_eq_append_take, balI_append]
  have h1 := ha k
  have h2 := hb (k - a.length)
  omega

theorem prefOK_nonneg_chars (p : Str) (h : ∀ c ∈ p, 0 ≤ parenDelta c) :
    PrefOK p := by
  intro k
  unfold balI
  apply List.sum_nonneg
  intro x hx
  rw [List.mem_map] at hx
  obtain ⟨c, hc, rfl⟩ := hx
  exact h c (List.take_subset k p hc)

theorem prefOK_bal {s : Str} (h : PrefOK s) : 0 ≤ balI s := by
  have := h s.length
  rwa [List.take_length] at this

theorem trim_decomp (s : Str) :
    ∃ l r, s = l ++ trim s ++ r ∧ (∀ c ∈ l, ws c = true) ∧
      (∀ c ∈ r, ws c = true) := by
  refine ⟨s.takeWhile ws, ((s.dropWhile ws).reverse.takeWhile ws).reverse,
    ?_, ?_, ?_⟩
  · have hmid : trim s ++ ((s.dropWhile ws).reverse.takeWhile ws).reverse =
        s.dropWhile ws := by
      unfold trim
      rw [← List.reverse_append, List.takeWhile_append_dropWhile,
        List.reverse_reverse]
    have h3 : s.takeWhile ws ++ s.dropWhile ws = s :=
      List.takeWhile_append_dropWhile ws s
    calc s = s.takeWhile ws ++ s.dropWhile ws := h3.symm
      _ = s.takeWhile ws ++
          (trim s ++ ((s.dropWhile ws).reverse.takeWhile ws).reverse) := by
        rw [hmid]
      _ = s.takeWhile ws ++ trim s ++
          ((s.dropWhile ws).reverse.takeWhile ws).reverse :=
        (List.append_assoc _ _ _).symm
  · exact fun c hc => List.mem_takeWhile_imp hc
  · intro c hc
    rw [List.mem_reverse] at hc
    exact List.mem_takeWhile_imp hc

theorem prefOK_trim {s : Str} (h : PrefOK (trim s)) : PrefOK s := by
  obtain ⟨l, r, hs, hl, hr⟩ := trim_decomp s
  have hws : ∀ (p : Str), (∀ c ∈ p, ws c = true) → PrefOK p := fun p hp =>
    prefOK_nonneg_chars p (fun c hc => by rw [ws_delta (hp c hc)])
  conv => rw [hs]
  exact prefOK_append (prefOK_append (hws l hl) h) (hws r hr)

theorem prefOK_paren {tl : Str} (h : PrefOK tl.dropLast) :
    PrefOK ('(' :: tl) := by
  intro k
  cases k with
  | zero => simp [balI]
  | succ k =>
    rw [List.take_succ_cons]
    have hb : balI ('(' :: tl.take k) = 1 + balI (tl.take k) := by
      simp [balI, parenDelta]
    rw [hb]
    by_cases hk : k ≤ tl.length - 1
    · have heq : tl.dropLast.take k = tl.take k := by
        rw [List.dropLast_eq_take, List.take_take, min_eq_left hk]
      have := h k
      rw [heq] at this
      omega
    · cases tl with
      | nil => simp [balI]
      | cons a t =>
        have hne : (a :: t) ≠ [] := by simp
        have hk2 : (a :: t).length ≤ k := by
          simp only [List.length_cons]
          simp only [List.length_cons] at hk
          omega
        rw [List.take_of_length_le hk2]
        have hdecomp : (a :: t).dropLast ++ [(a :: t).getLast hne] = a :: t :=
          List.dropLast_append_getLast hne
        have hb2 : balI (a :: t) =
            balI (a :: t).dropLast + parenDelta ((a :: t).getLast hne) := by
          conv_lhs => rw [← hdecomp]
          rw [balI_append]
          simp [balI]
        have h0 := h (a :: t).dropLast.length
        rw [List.take_length] at h0
        have hd := parenDelta_ge ((a :: t).getLast hne)
        omega

theorem parenScan_run (l : Str) : ∀ (lvl : Int) (idx : Nat),
    (∀ k, k ≤ l.length → 0 < lvl + balI (l.take k)) →
    l.foldl parenScanStep (lvl, idx) = (lvl + balI l, idx + l.length) := by
  induction l with
  | nil =>
    intro lvl idx _
    simp [balI]
  | cons c t ih =>
    intro lvl idx hpos
    have h1 : 0 < lvl + parenDelta c := by
      have := hpos 1 (by simp)
      rw [show (c :: t).take 1 = [c] from rfl] at this
      simpa [balI] using this
    have hstep : parenScanStep (lvl, idx) c = (lvl + parenDelta c, idx + 1) := by
      simp only [parenScanStep]
      by_cases hl0 : lvl = 0
      · subst hl0
        by_cases hc : c = '('
        · subst hc; simp [parenDelta]
        · exfalso
          have : parenDelta c ≤ 0 := by
            unfold parenDelta
            rw [if_neg hc]
            split <;> omega
          omega
      · rw [if_neg hl0]
        by_cases hc1 : c = '('
        · subst hc1; simp [parenDelta]
        · rw [if_neg hc1]
          by_cases hc2 : c = ')'
          · subst hc2
            simp [parenDelta]
            omega
          · rw [if_neg hc2]
            simp [parenDelta, hc1, hc2]
    rw [List.foldl_cons, hstep, ih (lvl + parenDelta c) (idx + 1) ?hrest]
    case hrest =>
      intro k hk
      have := hpos (k + 1) (by simp; omega)
      rw [List.take_succ_cons] at this
      have hb : balI (c :: t.take k) = parenDelta c + balI (t.take k) := by
        simp [balI]
      rw [hb] at this
      omega
    have hb : balI (c :: t) = parenDelta c + balI t := by simp [balI]
    rw [hb]
    refine Prod.ext ?_ ?_
    · simp; omega
    · simp; omega

theorem parseStageGo_nil : ∀ (f : Nat) (st : Stage),
    parseStageGo f st ([] : Str) = .error .PluralParsing := by
  intro f
  induction f with
  | zero => intro st; rfl
  | succ g ih =>
    intro st
    cases st <;>
      first
        | rfl
        | exact ih .parens
        | exact ih .pAnd
        | exact ih .pOr
        | exact ih .pTernary
        | exact ih .pGe
        | exact ih .pGt
        | exact ih .pLe
        | exact ih .pLt
        | exact ih .pEq
        | exact ih .pNeq
        | exact ih .pMod
        | exact ih .pNot
        | exact ih .pInt
        | exact ih .pN

theorem index_of_decomp {src pat : Str} {x : Nat}
    (h : index_of src pat = some x) :
    src = src.take x ++ pat ++ src.drop (x + pat.length) := by
  obtain ⟨hle, hslice, -⟩ := index_of_spec h
  conv_lhs => rw [← List.take_append_drop (x + pat.length) src,
    ← List.take_append_drop x (src.take (x + pat.length))]
  rw [hslice, List.take_take, min_eq_left (by omega)]

theorem go_top (f : Nat) (s : Str) :
    parseStageGo (f + 1) .top s = parseStageGo f .parens (trim s) := rfl

theorem go_parens_strip (f : Nat) (s : Str) (hh : s.head? = some '(')
    (he : (((s.drop 1).dropLast).foldl parenScanStep
      ((1, 2) : Int × Nat)).2 = s.length) :
    parseStageGo (f + 1) .parens s =
      parseStageGo f .top (trim ((s.drop 1).dropLast)) := by
  simp only [parseStageGo]
  rw [if_pos hh, if_pos he]

theorem trim_wrap (X : Str) :
    trim ('(' :: X ++ [')']) = '(' :: X ++ [')'] := by
  have h1 : ('(' :: X ++ [')']).dropWhile ws = '(' :: X ++ [')'] := by
    rw [show ('(' :: X ++ [')']) = '(' :: (X ++ [')']) from rfl,
      List.dropWhile_cons, if_neg (by decide)]
  have hrev : ('(' :: X ++ [')']).reverse = ')' :: (X.reverse ++ ['(']) := by
    simp
  have h2 : ('(' :: X ++ [')']).reverse.dropWhile ws =
      ('(' :: X ++ [')']).reverse := by
    rw [hrev, List.dropWhile_cons, if_neg (by decide)]
  unfold trim
  rw [h1, h2, List.reverse_reverse]

theorem head?_dropWhile {p : Char → Bool} {c : Char} :
    ∀ {l : Str}, (l.dropWhile p).head? = some c → p c = false
  | [], h => by simp at h
  | a :: t, h => by
    rw [List.dropWhile_cons] at h
    split at h
    · exact head?_dropWhile h
    · simp only [List.head?_cons, Option.some.injEq] at h
      subst h
      simp_all

theorem dropWhile_eq_drop (p : Char → Bool) :
    ∀ (l : Str), l.dropWhile p = l.drop (l.takeWhile p).length
  | [] => rfl
  | a :: t => by
    rw [List.dropWhile_cons, List.takeWhile_cons]
    split
    · rw [dropWhile_eq_drop p t]
      simp
    · simp

theorem trim_take (s : Str) :
    ∃ m, trim s = (s.dropWhile ws).take m := by
  refine ⟨(s.dropWhile ws).length -
    ((s.dropWhile ws).reverse.takeWhile ws).length, ?_⟩
  unfold trim
  rw [dropWhile_eq_drop ws (s.dropWhile ws).reverse, List.drop_reverse,
    List.reverse_reverse]

theorem trim_head {s : Str} {c : Char} (h : (trim s).head? = some c) :
    ws c = false := by
  obtain ⟨m, htr⟩ := trim_take s
  rw [htr, List.head?_take] at h
  split at h
  · simp at h
  · exact head?_dropWhile h

theorem trim_last {s : Str} {c : Char} (h : (trim s).getLast? = some c) :
    ws c = false := by
  unfold trim at h
  rw [List.getLast?_reverse] at h
  exact head?_dropWhile h

theorem dropWhile_eq_self_of_head {p : Char → Bool} {l : Str} {c : Char}
    (h1 : l.head? = some c) (h2 : p c = false) : l.dropWhile p = l := by
  cases l with
  | nil => simp at h1
  | cons a t =>
    simp only [List.head?_cons, Option.some.injEq] at h1
    subst h1
    rw [List.dropWhile_cons, if_neg (by simp [h2])]

theorem trim_eq_self {s : Str}
    (h1 : ∀ c, s.head? = some c → ws c = false)
    (h2 : ∀ c, s.getLast? = some c → ws c = false) : trim s = s := by
  have hd : s.dropWhile ws = s := by
    cases hh : s.head? with
    | none =>
      rw [List.head?_eq_none_iff] at hh
      rw [hh]
      rfl
    | some c => exact dropWhile_eq_self_of_head hh (h1 c hh)
  have hrv : s.reverse.dropWhile ws = s.reverse := by
    cases hh : s.reverse.head? with
    | none =>
      rw [List.head?_eq_none_iff] at hh
      rw [hh]
      rfl
    | some c =>
      refine dropWhile_eq_self_of_head hh (h2 c ?_)
      rwa [List.head?_reverse] at hh
  unfold trim
  rw [hd, hrv, List.reverse_reverse]

theorem trim_idem (s : Str) : trim (trim s) = trim s := by
  cases hh : (trim s).head? with
  | none =>
    rw [List.head?_eq_none_iff] at hh
    rw [hh]
    rfl
  | some c =>
    exact trim_eq_self (fun c' hc' => trim_head hc')
      (fun c' hc' => trim_last hc')

theorem parseU64_delta {s : Str} {v : Nat} (h : parseU64 s = some v) :
    ∀ c ∈ s, 0 ≤ parenDelta c := by
  have hdig : ∀ d : Char, d.isDigit = true → parenDelta d = 0 := by
    intro d hd
    have d1 : d ≠ '(' := by rintro rfl; exact absurd hd (by decide)
    have d2 : d ≠ ')' := by rintro rfl; exact absurd hd (by decide)
    simp [parenDelta, d1, d2]
  have key : ∃ t : Str, (s = t ∨ s = '+' :: t) ∧
      t.all Char.isDigit = true := by
    simp only [parseU64] at h
    cases s with
    | nil => simp at h
    | cons a rest =>
      by_cases ha : a = '+'
      · subst ha
        split at h
        next hcond =>
          have hcond' : rest ≠ [] ∧ rest.all Char.isDigit = true := hcond
          exact ⟨rest, Or.inr rfl, hcond'.2⟩
        next => simp at h
      · split at h
        next hcond =>
          have hcond' : (a :: rest) ≠ [] ∧
              (a :: rest).all Char.isDigit = true := by
            revert hcond
            have hm : (match (a :: rest : Str) with
                | '+' :: r => r
                | _ => (a :: rest : Str)) = a :: rest := by
              split
              next r heq =>
                rw [List.cons.injEq] at heq
                exact absurd heq.1 ha
              next => rfl
            intro hcond
            exact hm ▸ hcond
          exact ⟨a :: rest, Or.inl rfl, hcond'.2⟩
        next => simp at h
  obtain ⟨t, hst, hall⟩ := key
  rw [List.all_eq_true] at hall
  intro c hcs
  rcases hst with rfl | rfl
  · rw [hdig c (by simpa using hall c hcs)]
  · rw [List.mem_cons] at hcs
    rcases hcs with rfl | hcs2
    · decide
    · rw [hdig c (by simpa using hall c hcs2)]

theorem prefOK_split2 {src pat A B : Str} (hd : src = A ++ pat ++ B)
    (hA : PrefOK A) (hB : PrefOK B)
    (hp : ∀ c ∈ pat, 0 ≤ parenDelta c) : PrefOK src := by
  rw [hd]
  exact prefOK_append (prefOK_append hA (prefOK_nonneg_chars pat hp)) hB

theorem ternary_take_decomp {src : Str} {i l : Nat}
    (h1 : index_of src ['?'] = some i) (hil : i + 1 ≤ l) :
    src.take l = src.take i ++ ['?'] ++ (src.take l).drop (i + 1) := by
  have hd := index_of_decomp h1
  simp only [List.length_cons, List.length_nil] at hd
  have hi : i + 1 ≤ src.length := by
    have := (index_of_spec h1).1
    simpa using this
  have htk : src.take (i + 1) = src.take i ++ ['?'] := by
    conv_lhs => rw [hd]
    rw [List.take_append_eq_append_take]
    have hlen1 : (src.take i ++ ['?']).length = i + 1 := by
      simp only [List.length_append, List.length_take, List.length_cons,
        List.length_nil]
      omega
    rw [List.take_of_length_le (by rw [hlen1]), hlen1]
    simp
  calc src.take l
      = (src.take l).take (i + 1) ++ (src.take l).drop (i + 1) :=
        (List.take_append_drop _ _).symm
    _ = src.take (i + 1) ++ (src.take l).drop (i + 1) := by
        rw [List.take_take, min_eq_left hil]
    _ = src.take i ++ ['?'] ++ (src.take l).drop (i + 1) := by rw [htk]

/-- Any string accepted by the plural parser has nonnegative parenthesis
balance on every prefix. -/
theorem parseGo_ok_prefOK : ∀ (f : Nat) (st : Stage) (src : Str) (a : Ast),
    parseStageGo f st src = .ok a → PrefOK src := by
  intro f
  induction f with
  | zero =>
    intro st src a h
    simp [parseStageGo] at h
  | succ g ih =>
    intro st src a h
    cases st with
    | top =>
      simp only [parseStageGo] at h
      exact prefOK_trim (ih _ _ _ h)
    | parens =>
      simp only [parseStageGo] at h
      by_cases hh : src.head? = some '('
      · rw [if_pos hh] at h
        by_cases he : (((src.drop 1).dropLast).foldl parenScanStep
            ((1, 2) : Int × Nat)).2 = src.length
        · rw [if_pos he] at h
          have hin : PrefOK ((src.drop 1).dropLast) :=
            prefOK_trim (ih _ _ _ h)
          cases src with
          | nil => simp at hh
          | cons c0 tl =>
            have hc0 : c0 = '(' := by simpa using hh
            subst hc0
            exact prefOK_paren (by simpa using hin)
        · rw [if_neg he] at h
          exact prefOK_trim (ih _ _ _ h)
      · rw [if_neg hh] at h
        exact prefOK_trim (ih _ _ _ h)
    | pAnd =>
      simp only [parseStageGo] at h
      cases hio : index_of src ['&', '&'] with
      | none =>
        simp only [hio] at h
        exact ih _ _ _ h
      | some i =>
        simp only [hio] at h
        cases hA : parseStageGo g .top (src.take i) with
        | error e => simp only [hA] at h; simp at h
        | ok lft =>
          simp only [hA] at h
          cases hB : parseStageGo g .top (src.drop (i + 2)) with
          | error e => simp only [hB] at h; simp at h
          | ok rgt =>
            exact prefOK_split2 (index_of_decomp hio)
              (ih _ _ _ hA) (ih _ _ _ hB) (by decide)
    | pOr =>
      simp only [parseStageGo] at h
      cases hio : index_of src ['|', '|'] with
      | none =>
        simp only [hio] at h
        exact ih _ _ _ h
      | some i =>
        simp only [hio] at h
        cases hA : parseStageGo g .top (src.take i) with
        | error e => simp only [hA] at h; simp at h
        | ok lft =>
          simp only [hA] at h
          cases hB : parseStageGo g .top (src.drop (i + 2)) with
          | error e => simp only [hB] at h; simp at h
          | ok rgt =>
            exact prefOK_split2 (index_of_decomp hio)
              (ih _ _ _ hA) (ih _ _ _ hB) (by decide)
    | pTernary =>
      simp only [parseStageGo] at h
      cases hio : index_of src ['?'] with
      | none =>
        simp only [hio] at h
        exact ih _ _ _ h
      | some i =>
        simp only [hio] at h
        cases hio2 : index_of src [':'] with
        | none => simp only [hio2] at h; simp at h
        | some l =>
          simp only [hio2] at h
          cases hA : parseStageGo g .top (src.take i) with
          | error e => simp only [hA] at h; simp at h
          | ok c1 =>
            simp only [hA] at h
            cases hM : parseStageGo g .top ((src.take l).drop (i + 1)) with
            | error e => simp only [hM] at h; simp at h
            | ok c2 =>
              simp only [hM] at h
              cases hB : parseStageGo g .top (src.drop (l + 1)) with
              | error e => simp only [hB] at h; simp at h
              | ok c3 =>
                by_cases hil : i + 1 ≤ l
                · have hdl := index_of_decomp hio2
                  simp only [List.length_cons, List.length_nil] at hdl
                  have htkl := ternary_take_decomp hio hil
                  have hPtl : PrefOK (src.take l) := by
                    rw [htkl]
                    exact prefOK_append (prefOK_append (ih _ _ _ hA)
                      (prefOK_nonneg_chars _ (by decide))) (ih _ _ _ hM)
                  conv => rw [hdl]
                  exact prefOK_append (prefOK_append hPtl
                    (prefOK_nonneg_chars _ (by decide))) (ih _ _ _ hB)
                · have hM0 : (src.take l).drop (i + 1) = [] := by
                    apply List.eq_nil_of_length_eq_zero
                    simp only [List.length_drop, List.length_take]
                    omega
                  rw [hM0, parseStageGo_nil] at hM
                  simp at hM
    | pGe =>
      simp only [parseStageGo] at h
      cases hio : index_of src ['>', '='] with
      | none =>
        simp only [hio] at h
        exact ih _ _ _ h
      | some i =>
        simp only [hio] at h
        cases hA : parseStageGo g .top (src.take i) with
        | error e => simp only [hA] at h; simp at h
        | ok lft =>
          simp only [hA] at h
          cases hB : parseStageGo g .top (src.drop (i + 2)) with
          | error e => simp only [hB] at h; simp at h
          | ok rgt =>
            exact prefOK_split2 (index_of_decomp hio)
              (ih _ _ _ hA) (ih _ _ _ hB) (by decide)
    | pGt =>
      simp only [parseStageGo] at h
      cases hio : index_of src ['>'] with
      | none =>
        simp only [hio] at h
        exact ih _ _ _ h
      | some i =>
        simp only [hio] at h
        cases hA : parseStageGo g .top (src.take i) with
        | error e => simp only [hA] at h; simp at h
        | ok lft =>
          simp only [hA] at h
          cases hB : parseStageGo g .top (src.drop (i + 1)) with
          | error e => simp only [hB] at h; simp at h
          | ok rgt =>
            exact prefOK_split2 (index_of_decomp hio)
              (ih _ _ _ hA) (ih _ _ _ hB) (by decide)
    | pLe =>
      simp only [parseStageGo] at h
      cases hio : index_of src ['<', '='] with
      | none =>
        simp only [hio] at h
        exact ih _ _ _ h
      | some i =>
        simp only [hio] at h
        cases hA : parseStageGo g .top (src.take i) with
        | error e => simp only [hA] at h; simp at h
        | ok lft =>
          simp only [hA] at h
          cases hB : parseStageGo g .top (src.drop (i + 2)) with
          | error e => simp only [hB] at h; simp at h
          | ok rgt =>
            exact prefOK_split2 (index_of_decomp hio)
              (ih _ _ _ hA) (ih _ _ _ hB) (by decide)
    | pLt =>
      simp only [parseStageGo] at h
      cases hio : index_of src ['<'] with
      | none =>
        simp only [hio] at h
        exact ih _ _ _ h
      | some i =>
        simp only [hio] at h
        cases hA : parseStageGo g .top (src.take i) with
        | error e => simp only [hA] at h; simp at h
        | ok lft =>
          simp only [hA] at h
          cases hB : parseStageGo g .top (src.drop (i + 1)) with
          | error e => simp only [hB] at h; simp at h
          | ok rgt =>
            exact prefOK_split2 (index_of_decomp hio)
              (ih _ _ _ hA) (ih _ _ _ hB) (by decide)
    | pEq =>
      simp only [parseStageGo] at h
      cases hio : index_of src ['=', '='] with
      | none =>
        simp only [hio] at h
        exact ih _ _ _ h
      | some i =>
        simp only [hio] at h
        cases hA : parseStageGo g .top (src.take i) with
        | error e => simp only [hA] at h; simp at h
        | ok lft =>
          simp only [hA] at h
          cases hB : parseStageGo g .top (src.drop (i + 2)) with
          | error e => simp only [hB] at h; simp at h
          | ok rgt =>
            exact prefOK_split2 (index_of_decomp hio)
              (ih _ _ _ hA) (ih _ _ _ hB) (by decide)
    | pNeq =>
      simp only [parseStageGo] at h
      cases hio : index_of src ['!', '='] with
      | none =>
        simp only [hio] at h
        exact ih _ _ _ h
      | some i =>
        simp only [hio] at h
        cases hA : parseStageGo g .top (src.take i) with
        | error e => simp only [hA] at h; simp at h
        | ok lft =>
          simp only [hA] at h
          cases hB : parseStageGo g .top (src.drop (i + 2)) with
          | error e => simp only [hB] at h; simp at h
          | ok rgt =>
            exact prefOK_split2 (index_of_decomp hio)
              (ih _ _ _ hA) (ih _ _ _ hB) (by decide)
    | pMod =>
      simp only [parseStageGo] at h
      cases hio : index_of src ['%'] with
      | none =>
        simp only [hio] at h
        exact prefOK_trim (ih _ _ _ h)
      | some i =>
        simp only [hio] at h
        cases hA : parseStageGo g .top (src.take i) with
        | error e => simp only [hA] at h; simp at h
        | ok lft =>
          simp only [hA] at h
          cases hB : parseStageGo g .top (src.drop (i + 1)) with
          | error e => simp only [hB] at h; simp at h
          | ok rgt =>
            exact prefOK_split2 (index_of_decomp hio)
              (ih _ _ _ hA) (ih _ _ _ hB) (by decide)
    | pNot =>
      simp only [parseStageGo] at h
      by_cases hnot : index_of src ['!'] = some 0
      · rw [if_pos hnot] at h
        cases hV : parseStageGo g .top (src.drop 1) with
        | error e => simp only [hV] at h; simp at h
        | ok v =>
          have hd := index_of_decomp hnot
          simp only [List.take_zero, List.nil_append, List.length_cons,
            List.length_nil, Nat.zero_add] at hd
          conv => rw [hd]
          exact prefOK_append (prefOK_nonneg_chars _ (by decide))
            (ih _ _ _ hV)
      · rw [if_neg hnot] at h
        exact prefOK_trim (ih _ _ _ h)
    | pInt =>
      simp only [parseStageGo] at h
      cases hp : parseU64 src with
      | some x => exact prefOK_nonneg_chars src (parseU64_delta hp)
      | none =>
        simp only [hp] at h
        exact prefOK_trim (ih _ _ _ h)
    | pN =>
      simp only [parseStageGo] at h
      by_cases hn : src = ['n']
      · rw [hn]
        exact prefOK_nonneg_chars _ (by decide)
      · rw [if_neg hn] at h
        simp at h

/-- C7: for every well-formed plural expression source `X` (one that
`Ast::parse` accepts) and every count `n`, parsing `"(" + X + ")"`
succeeds and evaluating its result at `n` yields the same value as
evaluating the parse of `X` at `n` — wrapping an expression in one pair
of parentheses does not change its evaluation. (In fact the parse trees
coincide.) -/
theorem c7_paren_idempotent (X : Str) (a : Ast) (h : Ast.parse X = .ok a) :
    Ast.parse ('(' :: (X ++ [')'])) = .ok a ∧
    ∀ n : Nat, (Ast.parse ('(' :: (X ++ [')']))).map
      (fun b => Ast.resolve b n) = .ok (Ast.resolve a n) := by
  have hpref : PrefOK X := parseGo_ok_prefOK _ _ _ _ h
  set W := '(' :: (X ++ [')']) with hW
  have hdl : (W.drop 1).dropLast = X := by
    rw [hW]
    simp [List.dropLast_concat]
  have hpos : ∀ k, k ≤ X.length → 0 < 1 + balI (X.take k) := by
    intro k _
    have := hpref k
    omega
  have hscan : (((W.drop 1).dropLast).foldl parenScanStep
      ((1, 2) : Int × Nat)).2 = W.length := by
    rw [hdl, parenScan_run X 1 2 hpos, hW]
    simp
    omega
  have hh : W.head? = some '(' := rfl
  have hml : (trim X).length ≤ X.length := trim_length_le X
  have key : Ast.parse W = .ok a := by
    have e1 : Ast.parse W = parseStageGo (16 * X.length + 48) .top W := by
      apply parseStage_eq_go
      rw [hW]
      simp only [stageMeasure, Stage.rank, List.length_cons,
        List.length_append, List.length_nil]
      omega
    have e2 : parseStageGo (16 * X.length + 48) .top W
        = parseStageGo (16 * X.length + 47) .parens (trim W) := by
      have h48 : 16 * X.length + 48 = (16 * X.length + 47) + 1 := by omega
      rw [h48, go_top]
    have e3 : trim W = W := trim_wrap X
    have e4 : parseStageGo (16 * X.length + 47) .parens W
        = parseStageGo (16 * X.length + 46) .top (trim X) := by
      have h47 : 16 * X.length + 47 = (16 * X.length + 46) + 1 := by omega
      rw [h47, go_parens_strip _ W hh hscan, hdl]
    have e5 : parseStageGo (16 * X.length + 46) .top (trim X)
        = parseStageGo (16 * X.length + 45) .parens (trim X) := by
      have h46 : 16 * X.length + 46 = (16 * X.length + 45) + 1 := by omega
      rw [h46, go_top, trim_idem]
    have e6 : parseStageGo (16 * X.length + 45) .parens (trim X)
        = parseStageGo (16 * X.length + 15) .parens (trim X) := by
      apply parseStageGo_fuel
      · simp only [stageMeasure, Stage.rank]
        omega
      · simp only [stageMeasure, Stage.rank]
        omega
    have e7 : parseStageGo (16 * X.length + 15) .parens (trim X) = .ok a := by
      have hx : Ast.parse X = parseStageGo (16 * X.length + 16) .top X := by
        apply parseStage_eq_go
        simp only [stageMeasure, Stage.rank]
        omega
      have hx2 : parseStageGo (16 * X.length + 16) .top X
          = parseStageGo (16 * X.length + 15) .parens (trim X) := by
        have h16 : 16 * X.length + 16 = (16 * X.length + 15) + 1 := by omega
        rw [h16, go_top]
      rw [← hx2, ← hx, h]
    rw [e1, e2, e3, e4, e5, e6, e7]
  refine ⟨key, fun n => ?_⟩
  rw [key]
  rfl

/-- Witness for C7 at the concrete source `"n"`. -/
theorem c7_paren_idempotent_witness :
    Ast.parse (['n'] : Str) = .ok .N ∧
    (Ast.parse ('(' :: ((['n'] : Str) ++ [')'])) = .ok .N ∧
     ∀ n : Nat, (Ast.parse ('(' :: ((['n'] : Str) ++ [')']))).map
       (fun b => Ast.resolve b n) = .ok (Ast.resolve .N n)) :=
  ⟨by decide, c7_paren_idempotent ['n'] .N (by decide)⟩

end Gettext
